import Mathlib

/-!
Verification of the VTT (WebVTT) subtitle utilities of the `transcribe`
repository: the timestamp codec (`parseTimestamp` / `formatTimestamp`),
the subtitle document engine (`parseVTT` / `serializeVTT` / `mergeVTT`),
the audio chunk planner (`splitAudio` / `calculateChunkCount`), and the
free-text transcript parser (`parseGeminiTranscript`).

Modelling conventions of the shallow embedding:
* JavaScript strings are modelled as `List Char`.
* JavaScript numbers are modelled as `ℚ`; a number that can be `NaN`
  (the result of a failed `parseInt` / `parseFloat`) is modelled as
  `Option ℚ` with `none` playing the role of `NaN` (NaN propagates
  through arithmetic exactly as `none` propagates through `Option.map`
  and matching).  Floating-point rounding itself is not modelled; the
  specification states its laws with explicit tolerances, which the
  exact rational results satisfy.
* JavaScript library primitives (`split`, `trim`, `padStart`,
  `parseInt`, `parseFloat`, `String()`, `Array.prototype.sort`,
  regular-expression matching) are given explicit executable
  definitions that follow the ECMAScript semantics on the inputs the
  program produces; the regular expressions of the source are unfolded
  into their deterministic backtracking behaviour.
-/

/-- Whitespace test used for `trim`, `\s` and `padStart` padding checks
(space, tab, CR, LF — the characters relevant to this program). -/
def isWs (c : Char) : Bool := c.isWhitespace

/-- `String.data` of a literal: JS string literals as `List Char`. -/
def str (s : String) : List Char := s.data

/-- Decimal digit character for `d < 10` (the only arguments used). -/
def digitChar (d : ℕ) : Char :=
  match d with
  | 0 => '0' | 1 => '1' | 2 => '2' | 3 => '3' | 4 => '4'
  | 5 => '5' | 6 => '6' | 7 => '7' | 8 => '8' | _ => '9'

/-- Numeric value of a decimal digit character. -/
def digitVal (c : Char) : ℕ := c.toNat - 48

/-- Decimal rendering of a natural number, as produced by the JS
`String()` conversion for integer-valued numbers. -/
def natToChars (n : ℕ) : List Char :=
  if h : n < 10 then [digitChar n]
  else natToChars (n / 10) ++ [digitChar (n % 10)]
  termination_by n
  decreasing_by exact Nat.div_lt_self (by omega) (by omega)

/-- Decimal rendering of an integer (JS `String()` on an integer-valued
number). -/
def intToChars (i : ℤ) : List Char :=
  if i < 0 then '-' :: natToChars (-i).toNat else natToChars i.toNat

/-- Value of a list of decimal digit characters (most significant
first), as consumed by `parseInt` / `parseFloat`. -/
def natOfChars (ds : List Char) : ℕ :=
  ds.foldl (fun a c => 10 * a + digitVal c) 0

/-- JS `String.prototype.padStart(n, c)`: left-pad to length `n`. -/
def padStart (s : List Char) (n : ℕ) (c : Char) : List Char :=
  List.replicate (n - s.length) c ++ s

/-- JS `String.prototype.trim()`: strip whitespace from both ends. -/
def jsTrim (l : List Char) : List Char :=
  ((l.dropWhile isWs).reverse.dropWhile isWs).reverse

/-- JS `String.prototype.split(c)` for a single-character separator. -/
def splitOnChar (c : Char) : List Char → List (List Char)
  | [] => [[]]
  | x :: xs =>
    if x = c then [] :: splitOnChar c xs
    else
      match splitOnChar c xs with
      | [] => [[x]]
      | p :: ps => (x :: p) :: ps

/-- JS `String.prototype.split(sep)` for a multi-character separator
(left-to-right, non-overlapping). -/
def splitOnSeq (sep : List Char) : List Char → List (List Char)
  | [] => [[]]
  | x :: xs =>
    if h : sep.isPrefixOf (x :: xs) ∧ sep ≠ [] then
      [] :: splitOnSeq sep ((x :: xs).drop sep.length)
    else
      match splitOnSeq sep xs with
      | [] => [[x]]
      | p :: ps => (x :: p) :: ps
  termination_by l => l.length
  decreasing_by
  · have : sep.length ≠ 0 := by
      intro h0
      exact h.2 (List.eq_nil_of_length_eq_zero h0)
    simp [List.length_drop]
    omega
  · simp

/-- JS `String.prototype.includes(sep)`: substring test. -/
def containsSeq (sep : List Char) : List Char → Bool
  | [] => sep.isPrefixOf []
  | x :: xs => sep.isPrefixOf (x :: xs) || containsSeq sep xs

/-- JS truncation toward zero (used by the `%` remainder operator). -/
def jsTrunc (q : ℚ) : ℤ := if 0 ≤ q then ⌊q⌋ else -⌊-q⌋

/-- JS `%` on finite numbers: `a - b * trunc(a / b)` (sign of the
dividend). -/
def jsRem (a b : ℚ) : ℚ := a - b * (jsTrunc (a / b) : ℚ)

/-- JS `Math.round`: round half toward positive infinity. -/
def jsRound (q : ℚ) : ℤ := ⌊q + 1 / 2⌋

/-- The optional leading sign of the numeric-literal grammars shared by
`parseInt` and `parseFloat`: the sign factor and the remaining text. -/
def signSplit (t : List Char) : ℚ × List Char :=
  match t with
  | '-' :: r => (-1, r)
  | '+' :: r => (1, r)
  | _ => (1, t)

/-- JS `parseInt(s, 10)`: skip leading whitespace, optional sign,
maximal run of decimal digits; `NaN` (= `none`) when no digit is found.
(Exotic forms such as `Infinity` never arise in this program.) -/
def jsParseInt (s : List Char) : Option ℚ :=
  let t := s.dropWhile isWs
  let p := signSplit t
  let ds := p.2.takeWhile Char.isDigit
  if ds.isEmpty then none else some (p.1 * (natOfChars ds : ℚ))

/-- JS `parseFloat(s)`: skip leading whitespace, optional sign, decimal
digits with optional fraction and optional exponent; `NaN` (= `none`)
when no digit is found.  (`Infinity` literals never arise here.) -/
def jsParseFloat (s : List Char) : Option ℚ :=
  let t := s.dropWhile isWs
  let p := signSplit t
  let intDs := p.2.takeWhile Char.isDigit
  let t3 := p.2.drop intDs.length
  let fr : List Char × List Char :=
    match t3 with
    | '.' :: r => (r.takeWhile Char.isDigit, r.drop (r.takeWhile Char.isDigit).length)
    | _ => ([], t3)
  if intDs.isEmpty ∧ fr.1.isEmpty then none
  else
    let mantissa : ℚ := (natOfChars intDs : ℚ) + (natOfChars fr.1 : ℚ) / 10 ^ fr.1.length
    let e : ℤ :=
      match fr.2 with
      | 'e' :: r =>
        (match r with
         | '-' :: r2 => if (r2.takeWhile Char.isDigit).isEmpty then 0
             else -(natOfChars (r2.takeWhile Char.isDigit) : ℤ)
         | '+' :: r2 => if (r2.takeWhile Char.isDigit).isEmpty then 0
             else (natOfChars (r2.takeWhile Char.isDigit) : ℤ)
         | _ => if (r.takeWhile Char.isDigit).isEmpty then 0
             else (natOfChars (r.takeWhile Char.isDigit) : ℤ))
      | 'E' :: r =>
        (match r with
         | '-' :: r2 => if (r2.takeWhile Char.isDigit).isEmpty then 0
             else -(natOfChars (r2.takeWhile Char.isDigit) : ℤ)
         | '+' :: r2 => if (r2.takeWhile Char.isDigit).isEmpty then 0
             else (natOfChars (r2.takeWhile Char.isDigit) : ℤ)
         | _ => if (r.takeWhile Char.isDigit).isEmpty then 0
             else (natOfChars (r.takeWhile Char.isDigit) : ℤ))
      | _ => 0
    some (p.1 * mantissa * (10 : ℚ) ^ e)

/-- `parseTimestamp` from `src/utils/vtt.ts`: split on `:`; three
fields are `H:M:S.f`, two fields are `M:S.f`, otherwise the first field
alone is the seconds.  A failed numeric parse is `NaN`, i.e. `none`. -/
def parseTimestamp (timestamp : List Char) : Option ℚ :=
  let parts := splitOnChar ':' timestamp
  if parts.length = 3 then
    match jsParseInt (parts.getD 0 []), jsParseInt (parts.getD 1 []),
        jsParseFloat (parts.getD 2 []) with
    | some h, some m, some s => some (h * 3600 + m * 60 + s)
    | _, _, _ => none
  else if parts.length = 2 then
    match jsParseInt (parts.getD 0 []), jsParseFloat (parts.getD 1 []) with
    | some m, some s => some (m * 60 + s)
    | _, _ => none
  else jsParseFloat (parts.getD 0 [])

/-- `formatTimestamp` from `src/utils/vtt.ts`:
`HH:MM:SS.mmm` with two-digit zero-padded hour/minute/second fields and
a three-digit zero-padded millisecond field. -/
def formatTimestamp (totalSeconds : ℚ) : List Char :=
  let hours : ℤ := ⌊totalSeconds / 3600⌋
  let minutes : ℤ := ⌊jsRem totalSeconds 3600 / 60⌋
  let seconds : ℤ := ⌊jsRem totalSeconds 60⌋
  let ms : ℤ := jsRound (jsRem totalSeconds 1 * 1000)
  padStart (intToChars hours) 2 '0' ++ ':' ::
    (padStart (intToChars minutes) 2 '0' ++ ':' ::
      (padStart (intToChars seconds) 2 '0' ++ '.' ::
        padStart (intToChars ms) 3 '0'))

/-- `formatTimestamp` applied to a possibly-NaN number: on `NaN` the JS
code produces the literal text `NaN:NaN:NaN.NaN` (`String(NaN)` in every
field, unchanged by `padStart`). -/
def formatTimestampN : Option ℚ → List Char
  | some q => formatTimestamp q
  | none => str "NaN:NaN:NaN.NaN"

/-- The `VTTCue` record of `src/types.ts`.  The source field `end` is a
Lean keyword and is rendered `endTime` here. -/
structure VTTCue where
  start : Option ℚ
  endTime : Option ℚ
  speaker : Option (List Char)
  text : List Char
deriving DecidableEq

/-- The match `text.match(/^<v\s+([^>]+)>(.*)/)` of `parseVTT`, unfolded
into its deterministic backtracking behaviour: after the literal `<v`
the engine takes a maximal whitespace run of length `w0 ≥ 1`, the group
`[^>]+` must then end exactly at the first `>` (position `g` in the
remainder), backtracking `\s+` down to `a = min w0 (g-1)` which must be
at least 1; group 1 is the slice between `a` and `g`, group 2 (`.*`)
is everything after the `>` up to the first line terminator. -/
def speakerMatch (t : List Char) : Option (List Char × List Char) :=
  match t with
  | '<' :: 'v' :: r =>
    let w0 := (r.takeWhile isWs).length
    let pre := r.takeWhile (fun c => c != '>')
    if w0 = 0 ∨ ¬ (r.contains '>') then none
    else
      let g := pre.length
      if g < 2 then none
      else
        let a := min w0 (g - 1)
        some ((r.drop a).take (g - a),
          (r.drop (g + 1)).takeWhile (fun c => c != '\n' && c != '\r'))
  | _ => none

/-- The separator of timestamp-range lines. -/
def arrowSeq : List Char := str "-->"

/-- The inner text-line loop of `parseVTT`: each raw line is trimmed,
checked against the speaker-tag pattern (the last match reassigns the
speaker and the tag prefix is stripped from that line), and pushed when
non-empty.  Returns the collected text lines and the final speaker. -/
def processTextLines : List (List Char) → Option (List Char) →
    List (List Char) × Option (List Char)
  | [], spk => ([], spk)
  | l :: ls, spk =>
    let text := jsTrim l
    match speakerMatch text with
    | some pr =>
      let res := processTextLines ls (some pr.1)
      ((if pr.2.isEmpty then res.1 else pr.2 :: res.1), res.2)
    | none =>
      let res := processTextLines ls spk
      ((if text.isEmpty then res.1 else text :: res.1), res.2)

/-- The main loop of `parseVTT` over the remaining lines: a line whose
trimmed form contains `-->` opens a cue block; its text lines run to the
first blank line; a block whose text lines are all empty is dropped; the
loop then continues after the blank line. -/
def parseCues : List (List Char) → List VTTCue
  | [] => []
  | l :: ls =>
    let line := jsTrim l
    if containsSeq arrowSeq line then
      let parts := (splitOnSeq arrowSeq line).map jsTrim
      let s := parseTimestamp (parts.getD 0 [])
      let e := parseTimestamp (parts.getD 1 [])
      let block := ls.takeWhile (fun x => !(jsTrim x).isEmpty)
      let rest := ls.dropWhile (fun x => !(jsTrim x).isEmpty)
      let tl := processTextLines block none
      (if tl.1.isEmpty then []
       else [⟨s, e, tl.2, List.intercalate [' '] tl.1⟩]) ++
        parseCues (rest.drop 1)
    else parseCues ls
  termination_by l => l.length
  decreasing_by
  · simp only [List.length_cons, List.length_drop]
    exact Nat.lt_succ_of_le (Nat.le_trans (Nat.sub_le _ _)
      (List.Sublist.length_le (List.dropWhile_sublist _)))
  · simp

/-- The header-skipping loop of `parseVTT`: drop lines until one
contains `-->` (checked on the raw, untrimmed line). -/
def skipHeader : List (List Char) → List (List Char)
  | [] => []
  | l :: ls => if containsSeq arrowSeq l then l :: ls else skipHeader ls

/-- `parseVTT` from `src/utils/vtt.ts`. -/
def parseVTT (vttContent : List Char) : List VTTCue :=
  parseCues (skipHeader (splitOnChar '\n' vttContent))

/-- The timestamp-range line `${start} --> ${end}` of `serializeVTT`. -/
def tsLine (cue : VTTCue) : List Char :=
  formatTimestampN cue.start ++ str " --> " ++ formatTimestampN cue.endTime

/-- The text line of `serializeVTT`: `<v SPEAKER>TEXT` when the speaker
is truthy (present and non-empty), plain `TEXT` otherwise. -/
def cueTextLine (cue : VTTCue) : List Char :=
  match cue.speaker with
  | some spk =>
    if spk.isEmpty then cue.text
    else str "<v " ++ spk ++ '>' :: cue.text
  | none => cue.text

/-- The per-cue text appended by `serializeVTT`: the timestamp-range
line, the text line, then a blank line. -/
def cueBlock (cue : VTTCue) : List Char :=
  tsLine cue ++ '\n' :: (cueTextLine cue ++ str "\n\n")

/-- `serializeVTT` from `src/utils/vtt.ts`. -/
def serializeVTT (cues : List VTTCue) : List Char :=
  str "WEBVTT\n\n" ++ (cues.map cueBlock).flatten

/-- The `VTTChunk` record of `src/types.ts` (the fields used by
`mergeVTT`). -/
structure VTTChunk where
  vtt : List Char
  offset : ℚ

/-- The per-cue offset shift of `mergeVTT` (`NaN` propagates). -/
def shiftCue (off : ℚ) (c : VTTCue) : VTTCue :=
  ⟨c.start.map (· + off), c.endTime.map (· + off), c.speaker, c.text⟩

/-- The comparator `(a, b) => a.start - b.start` of `mergeVTT`, as the
"may `a` stay before `b`" test of a stable sort: true when the
difference is `≤ 0`; a `NaN` comparison keeps the current order. -/
def jsLeStart (a b : VTTCue) : Bool :=
  match a.start, b.start with
  | some x, some y => x ≤ y
  | _, _ => true

/-- Stable insertion used to model `Array.prototype.sort`: the new
element (originally earlier) is placed before the first element it may
precede. -/
def sortInsert (x : VTTCue) : List VTTCue → List VTTCue
  | [] => [x]
  | b :: bs => if jsLeStart x b then x :: b :: bs else b :: sortInsert x bs

/-- `Array.prototype.sort((a, b) => a.start - b.start)`, modelled as a
stable sort (the ECMAScript-guaranteed observable behaviour for a
consistent comparator). -/
def sortCues : List VTTCue → List VTTCue
  | [] => []
  | x :: xs => sortInsert x (sortCues xs)

/-- Non-decreasing start order between two cues, stated on the numeric
values when both starts are present. -/
def cueStartLe (a b : VTTCue) : Prop :=
  ∀ x y, a.start = some x → b.start = some y → x ≤ y

/-- `mergeVTT` from `src/utils/vtt.ts`: parse every chunk, shift each
cue by the chunk offset, concatenate, sort by start, serialize. -/
def mergeVTT (chunks : List VTTChunk) : List Char :=
  let allCues :=
    (chunks.map (fun ch => (parseVTT ch.vtt).map (shiftCue ch.offset))).flatten
  serializeVTT (sortCues allCues)

/-- The `AudioChunk` record of `src/types.ts`. -/
structure AudioChunk where
  file : List Char
  offset : ℚ
  duration : ℚ
deriving DecidableEq

/-- `splitAudio` from `src/utils/audio.ts` (the chunk plan; the ffmpeg
invocations are external side effects outside the model).  The chunk
file names follow the OGG variant of the source; only `offset` and
`duration` matter to the claims. -/
def splitAudio (audioFile : List Char) (totalDuration maxChunkDuration : ℚ) :
    List AudioChunk :=
  if totalDuration ≤ maxChunkDuration then
    [⟨audioFile, 0, totalDuration⟩]
  else
    let numChunks : ℤ := ⌈totalDuration / maxChunkDuration⌉
    let chunkDuration := totalDuration / (numChunks : ℚ)
    (List.range numChunks.toNat).map (fun (i : ℕ) =>
      let startTime := (i : ℚ) * chunkDuration
      let chunkFile := str "chunk_" ++ padStart (natToChars (i + 1)) 2 '0' ++ str ".ogg"
      let actualDuration :=
        if (i : ℤ) < numChunks - 1 then chunkDuration
        else totalDuration - startTime
      ⟨chunkFile, startTime, actualDuration⟩)

/-- `calculateChunkCount` from `src/utils/audio.ts`. -/
def calculateChunkCount (totalDuration maxChunkDuration : ℚ) : ℤ :=
  ⌈totalDuration / maxChunkDuration⌉

/-- Head of the transcript-line pattern of `parseGeminiTranscript`
(`^\[\s*(\d{1,2}):` after the opening bracket and whitespace): one or
two digits that must be followed by a literal `:` (two digits are
preferred; with three or more digits both alternatives fail). -/
def headNum (v : List Char) : Option (ℕ × List Char) :=
  match v with
  | a :: b :: c :: rest =>
    if a.isDigit && b.isDigit && c == ':' then
      some (10 * digitVal a + digitVal b, rest)
    else if a.isDigit && b == ':' then some (digitVal a, c :: rest)
    else none
  | a :: b :: [] => if a.isDigit && b == ':' then some (digitVal a, []) else none
  | _ => none

/-- `(\d{2})`: exactly two digits. -/
def twoDigits (v : List Char) : Option (ℕ × List Char) :=
  match v with
  | a :: b :: rest =>
    if a.isDigit && b.isDigit then some (10 * digitVal a + digitVal b, rest)
    else none
  | _ => none

/-- The optional speaker group `(?:([^:]+):\s*)?` followed by `(.+)$`,
tried at a fixed position: `[^:]+` must end at the first `:` (at index
`≥ 1`), the `\s*` after that colon backtracks so that `(.+)$` keeps at
least one character, and `(.+)$` must reach the end of the line without
crossing a line terminator. -/
def trySpeaker (v : List Char) : Option (Option (List Char) × List Char) :=
  let pre := v.takeWhile (fun c => c != ':')
  if v.contains ':' ∧ 1 ≤ pre.length ∧ pre.length + 1 < v.length then
    let rest := v.drop (pre.length + 1)
    let m := min (rest.takeWhile isWs).length (rest.length - 1)
    if (rest.drop m).contains '\r' then none
    else some (some pre, rest.drop m)
  else none

/-- One position of the tail `(?:([^:]+):\s*)?(.+)$`: the speaker group
is preferred; otherwise `(.+)$` takes the whole remainder, which must be
non-empty and free of line terminators. -/
def tryTail (v : List Char) : Option (Option (List Char) × List Char) :=
  match trySpeaker v with
  | some r => some r
  | none => if v.isEmpty || v.contains '\r' then none else some (none, v)

/-- Backtracking of the `\s*` before the speaker group: positions are
tried from the maximal whitespace run down to zero; the first success
wins. -/
def tailLoop (u : List Char) : ℕ → Option (Option (List Char) × List Char)
  | 0 => tryTail u
  | k + 1 =>
    match tryTail (u.drop (k + 1)) with
    | some r => some r
    | none => tailLoop u k

/-- The tail of the transcript-line pattern after the closing `]`:
`\s*(?:([^:]+):\s*)?(.+)$`. -/
def geminiTail (u : List Char) : Option (Option (List Char) × List Char) :=
  tailLoop u (u.takeWhile isWs).length

/-- The match against
`/^\[\s*(\d{1,2}):(\d{2})(?::(\d{2}))?\s*\]\s*(?:([^:]+):\s*)?(.+)$/` in
`parseGeminiTranscript`, unfolded into its deterministic backtracking
behaviour.  Returns the two or three numeric fields (the values
`parseInt` yields on the digit captures), the optional raw speaker
capture and the text capture. -/
def geminiMatch (l : List Char) : Option (ℕ × ℕ × Option ℕ × Option (List Char) × List Char) :=
  match l with
  | '[' :: r0 =>
    let r1 := r0.dropWhile isWs
    match headNum r1 with
    | none => none
    | some (p1, r2) =>
      match twoDigits r2 with
      | none => none
      | some (p2, r3) =>
        let grp : Option (ℕ × List Char) :=
          match r3 with
          | ':' :: rest2 => twoDigits rest2
          | _ => none
        match grp with
        | some (p3, r4) =>
          (match (r4.dropWhile isWs) with
           | ']' :: u =>
             (match geminiTail u with
              | some (spk, txt) => some (p1, p2, some p3, spk, txt)
              | none => none)
           | _ => none)
        | none =>
          (match (r3.dropWhile isWs) with
           | ']' :: u =>
             (match geminiTail u with
              | some (spk, txt) => some (p1, p2, none, spk, txt)
              | none => none)
           | _ => none)
  | _ => none

/-- The global replacement
`replace(/^\*{1,2}|^\_{1,2}|\*{1,2}$|\_{1,2}$/g, '')` on the speaker
label: strip up to two leading `*` (or, failing that, `_`) and up to two
trailing `*` (or `_`) from the remainder. -/
def stripMd (s : List Char) : List Char :=
  let s1 : List Char :=
    match s with
    | '*' :: '*' :: r => r
    | '*' :: r => r
    | '_' :: '_' :: r => r
    | '_' :: r => r
    | _ => s
  let r1 := s1.reverse
  let s2 : List Char :=
    match r1 with
    | '*' :: '*' :: r => r
    | '*' :: r => r
    | '_' :: '_' :: r => r
    | '_' :: r => r
    | _ => r1
  s2.reverse

/-- In-place mutation of the last array element, as a pure update. -/
def updateLast (f : α → α) : List α → List α
  | [] => []
  | [a] => [f a]
  | a :: rest => a :: updateLast f rest

/-- Number of maximal whitespace runs in a string. -/
def wsRuns : List Char → ℕ
  | [] => 0
  | c :: rest =>
    if isWs c then 1 + wsRuns (rest.dropWhile isWs) else wsRuns rest
  termination_by l => l.length
  decreasing_by
  · exact Nat.lt_succ_of_le (List.Sublist.length_le (List.dropWhile_sublist _))
  · simp

/-- `text.split(/\s+/).length` in JS: one more than the number of
maximal whitespace runs (a leading or trailing run contributes an empty
piece). -/
def jsWordCount (t : List Char) : ℕ := 1 + wsRuns t

/-- The per-line body of the `parseGeminiTranscript` loop. -/
def parseGeminiStep (cues : List VTTCue) (line : List Char) : List VTTCue :=
  match geminiMatch line with
  | some (p1, p2, p3, speaker, lineText) =>
    let hm : ℕ × ℕ × ℕ :=
      match p3 with
      | some s3 => (p1, p2, s3)
      | none => (0, p1, p2)
    let startTime : ℚ := (hm.1 : ℚ) * 3600 + (hm.2.1 : ℚ) * 60 + (hm.2.2 : ℚ)
    let cues1 := updateLast (fun c => { c with endTime := some startTime }) cues
    let cs0 : Option (List Char) :=
      match speaker with
      | none => none
      | some s => if (jsTrim s).isEmpty then none else some (jsTrim s)
    let cs : Option (List Char) := cs0.map (fun t => jsTrim (stripMd t))
    match cs with
    | some t =>
      if ¬ t.isEmpty ∧ 30 < t.length then
        cues1 ++ [⟨some startTime, some (startTime + 30), none,
          jsTrim (t ++ str ": " ++ lineText)⟩]
      else
        cues1 ++ [⟨some startTime, some (startTime + 30),
          (if t.isEmpty then none else some t), jsTrim lineText⟩]
    | none =>
      cues1 ++ [⟨some startTime, some (startTime + 30), none, jsTrim lineText⟩]
  | none =>
    if ¬ cues.isEmpty ∧ ¬ (jsTrim line).isEmpty then
      updateLast (fun c => { c with text := c.text ++ ' ' :: jsTrim line }) cues
    else if ¬ (jsTrim line).isEmpty ∧ cues.isEmpty then
      [⟨some 0, some 30, none, jsTrim line⟩]
    else cues

/-- The final end-time adjustment of `parseGeminiTranscript`: the last
cue's end becomes its start plus `max(5, ceil(wordCount / 2.5))`. -/
def adjustLastEnd (cues : List VTTCue) : List VTTCue :=
  updateLast (fun c =>
    let estimated : ℤ := max 5 ⌈(jsWordCount c.text : ℚ) / (5 / 2 : ℚ)⌉
    { c with endTime := c.start.map (fun q => q + (estimated : ℚ)) }) cues

/-- `parseGeminiTranscript` from the transcription command: split into
lines, keep the non-blank ones, fold the per-line step, then adjust the
last cue's end time. -/
def parseGeminiTranscript (text : List Char) : List VTTCue :=
  let lines := (splitOnChar '\n' text).filter (fun l => !(jsTrim l).isEmpty)
  adjustLastEnd (lines.foldl parseGeminiStep [])

/-- A time value that round-trips exactly: present (not `NaN`),
non-negative and representable with millisecond precision. -/
def goodTimeVal : Option ℚ → Prop
  | some q => 0 ≤ q ∧ (1000 * q).den = 1
  | none => False

/-- Cue text that survives the serialize/parse round trip: non-empty,
already trimmed, free of line terminators, and not itself starting with
a speaker tag. -/
def goodTextP (t : List Char) : Prop :=
  t ≠ [] ∧ jsTrim t = t ∧ t.all (fun c => c != '\n' && c != '\r') = true ∧
    speakerMatch t = none

/-- A speaker label that survives the round trip: absent, or non-empty,
not starting with whitespace, and free of `>` and newline. -/
def goodSpeakerP : Option (List Char) → Prop
  | none => True
  | some s => s ≠ [] ∧ isWs (s.headD ' ') = false ∧
      s.all (fun c => c != '>' && c != '\n') = true

/-- A cue on which the document round trip is exact. -/
def goodCue (c : VTTCue) : Prop :=
  goodTimeVal c.start ∧ goodTimeVal c.endTime ∧ goodTextP c.text ∧
    goodSpeakerP c.speaker

instance : DecidablePred goodTimeVal := fun x => by
  unfold goodTimeVal
  cases x <;> infer_instance

instance : DecidablePred goodTextP := fun t => by
  unfold goodTextP
  infer_instance

instance : DecidablePred goodSpeakerP := fun x => by
  unfold goodSpeakerP
  cases x <;> infer_instance

instance : DecidablePred goodCue := fun c => by
  unfold goodCue
  infer_instance

set_option synthInstance.maxSize 1000 in
instance : DecidableEq (ℕ × ℕ × Option ℕ × Option (List Char) × List Char) := by
  infer_instance

theorem digitVal_digitChar : ∀ d < 10, digitVal (digitChar d) = d := by decide

theorem digitChar_isDigit : ∀ d < 10, (digitChar d).isDigit = true := by decide

theorem natOfChars_append (a : List Char) (c : Char) :
    natOfChars (a ++ [c]) = 10 * natOfChars a + digitVal c := by
  simp [natOfChars, List.foldl_append]

theorem natToChars_digits (n : ℕ) : ∀ c ∈ natToChars n, c.isDigit = true := by
  induction n using Nat.strong_induction_on with
  | _ n ih =>
    rw [natToChars]
    split
    · intro c hc
      rcases List.mem_singleton.mp hc with rfl
      exact digitChar_isDigit n ‹n < 10›
    · rename_i h
      intro c hc
      rcases List.mem_append.mp hc with h1 | h1
      · exact ih (n / 10) (Nat.div_lt_self (by omega) (by omega)) c h1
      · rcases List.mem_singleton.mp h1 with rfl
        exact digitChar_isDigit _ (Nat.mod_lt _ (by omega))

theorem natOfChars_natToChars (n : ℕ) : natOfChars (natToChars n) = n := by
  induction n using Nat.strong_induction_on with
  | _ n ih =>
    rw [natToChars]
    split
    · simp [natOfChars, digitVal_digitChar n ‹n < 10›]
    · rename_i h
      rw [natOfChars_append, ih (n / 10) (Nat.div_lt_self (by omega) (by omega)),
        digitVal_digitChar _ (Nat.mod_lt _ (by omega))]
      omega

theorem natToChars_ne_nil (n : ℕ) : natToChars n ≠ [] := by
  rw [natToChars]
  split
  · simp
  · simp

theorem natToChars_length_le (k : ℕ) : ∀ n, n < 10 ^ k → 1 ≤ k →
    (natToChars n).length ≤ k := by
  induction k with
  | zero => omega
  | succ k ihk =>
    intro n hn _
    rw [natToChars]
    split
    · simp
    · rename_i h
      have hk1 : 1 ≤ k := by
        by_contra hk
        have : k = 0 := by omega
        subst this
        simp at hn
        omega
      have := ihk (n / 10) (by
        rw [Nat.div_lt_iff_lt_mul (by norm_num)]
        calc n < 10 ^ (k + 1) := hn
          _ = 10 ^ k * 10 := by ring) hk1
      simp only [List.length_append, List.length_cons, List.length_nil]
      omega

theorem natOfChars_replicate_zero (k : ℕ) (ds : List Char) :
    natOfChars (List.replicate k '0' ++ ds) = natOfChars ds := by
  induction k with
  | zero => simp
  | succ k ih =>
    have : List.replicate (k + 1) '0' ++ ds = '0' :: (List.replicate k '0' ++ ds) := by
      simp [List.replicate_succ]
    rw [this]
    show (List.replicate k '0' ++ ds).foldl (fun a c => 10 * a + digitVal c)
      (10 * 0 + digitVal '0') = natOfChars ds
    have hd : 10 * 0 + digitVal '0' = 0 := by decide
    rw [hd]
    exact ih

theorem padStart_digits (s : List Char) (n : ℕ) (h : ∀ c ∈ s, c.isDigit = true) :
    ∀ c ∈ padStart s n '0', c.isDigit = true := by
  intro c hc
  rcases List.mem_append.mp hc with h1 | h1
  · rcases List.eq_of_mem_replicate h1 with rfl
    decide
  · exact h c h1

theorem natOfChars_padStart (s : List Char) (n : ℕ) :
    natOfChars (padStart s n '0') = natOfChars s :=
  natOfChars_replicate_zero _ _

theorem padStart_length (s : List Char) (n : ℕ) (c : Char) :
    (padStart s n c).length = max n s.length := by
  simp [padStart]
  omega

theorem ws_not_digit {c : Char} (h : isWs c = true) : c.isDigit = false := by
  simp only [isWs, Char.isWhitespace, Bool.or_eq_true, decide_eq_true_eq] at h
  rcases h with ((h | h) | h) | h <;> subst h <;> decide

theorem isDigit_not_ws {c : Char} (h : c.isDigit = true) : isWs c = false := by
  cases hw : isWs c
  · rfl
  · rw [ws_not_digit hw] at h
    exact absurd h (by simp)

theorem takeWhile_all (p : Char → Bool) (l : List Char) (h : ∀ c ∈ l, p c = true) :
    l.takeWhile p = l := by
  induction l with
  | nil => rfl
  | cons x xs ih =>
    rw [List.takeWhile_cons_of_pos (h x (by simp))]
    rw [ih (fun c hc => h c (by simp [hc]))]

theorem signSplit_digit (d : Char) (rest : List Char) (hdd : d.isDigit = true) :
    signSplit (d :: rest) = (1, d :: rest) := by
  unfold signSplit
  split
  · rename_i heq
    rw [List.cons.injEq] at heq
    rw [heq.1] at hdd
    exact absurd hdd (by decide)
  · rename_i heq
    rw [List.cons.injEq] at heq
    rw [heq.1] at hdd
    exact absurd hdd (by decide)
  · rfl

theorem takeWhile_append_all (p : Char → Bool) (a b : List Char)
    (h : ∀ c ∈ a, p c = true) :
    (a ++ b).takeWhile p = a ++ b.takeWhile p := by
  induction a with
  | nil => simp
  | cons x xs ih =>
    rw [List.cons_append, List.takeWhile_cons_of_pos (h x (by simp)),
      ih (fun c hc => h c (by simp [hc])), List.cons_append]

theorem dropWhile_append_all (p : Char → Bool) (a b : List Char)
    (h : ∀ c ∈ a, p c = true) :
    (a ++ b).dropWhile p = b.dropWhile p := by
  induction a with
  | nil => simp
  | cons x xs ih =>
    rw [List.cons_append, List.dropWhile_cons_of_pos (h x (by simp)),
      ih (fun c hc => h c (by simp [hc]))]

theorem jsParseInt_digits (ds : List Char) (h0 : ds ≠ [])
    (hd : ∀ c ∈ ds, c.isDigit = true) :
    jsParseInt ds = some ((natOfChars ds : ℕ) : ℚ) := by
  obtain ⟨d, rest, rfl⟩ := List.exists_cons_of_ne_nil h0
  have hdd : d.isDigit = true := hd d (by simp)
  have h1 : (d :: rest).dropWhile isWs = d :: rest :=
    List.dropWhile_cons_of_neg (by simp [isDigit_not_ws hdd])
  simp only [jsParseInt, h1, signSplit_digit d rest hdd, takeWhile_all _ _ hd]
  simp

theorem jsParseFloat_digits_dot (a b : List Char) (h0 : a ≠ [])
    (ha : ∀ c ∈ a, c.isDigit = true) (hb : ∀ c ∈ b, c.isDigit = true) :
    jsParseFloat (a ++ '.' :: b) =
      some ((natOfChars a : ℚ) + (natOfChars b : ℚ) / 10 ^ b.length) := by
  obtain ⟨d, rest, rfl⟩ := List.exists_cons_of_ne_nil h0
  have hdd : d.isDigit = true := ha d (by simp)
  have h1 : ((d :: rest) ++ '.' :: b).dropWhile isWs = (d :: rest) ++ '.' :: b :=
    List.dropWhile_cons_of_neg (by simp [isDigit_not_ws hdd])
  have h2 : ((d :: rest) ++ '.' :: b).takeWhile Char.isDigit = d :: rest := by
    rw [takeWhile_append_all _ _ _ ha, List.takeWhile_cons_of_neg (by decide)]
    simp
  have hsign : signSplit ((d :: rest) ++ '.' :: b) = (1, (d :: rest) ++ '.' :: b) := by
    rw [List.cons_append]
    exact signSplit_digit d _ hdd
  have h3 : ((d :: rest) ++ '.' :: b).drop (d :: rest).length = '.' :: b :=
    List.drop_left _ _
  simp only [jsParseFloat, h1, hsign, h2, h3, takeWhile_all _ _ hb,
    List.drop_length]
  simp

theorem jsTrunc_of_nonneg {q : ℚ} (h : 0 ≤ q) : jsTrunc q = ⌊q⌋ := if_pos h

theorem jsRem_spec (a b : ℚ) (ha : 0 ≤ a) (hb : 0 < b) :
    jsRem a b = a - b * (⌊a / b⌋ : ℚ) ∧ 0 ≤ jsRem a b ∧ jsRem a b < b := by
  have he : jsRem a b = a - b * (⌊a / b⌋ : ℚ) := by
    unfold jsRem
    rw [jsTrunc_of_nonneg (div_nonneg ha hb.le)]
  have hfr : a - b * (⌊a / b⌋ : ℚ) = b * Int.fract (a / b) := by
    rw [Int.fract]
    field_simp
  constructor
  · exact he
  constructor
  · rw [he, hfr]
    exact mul_nonneg hb.le (Int.fract_nonneg _)
  · rw [he, hfr]
    calc b * Int.fract (a / b) < b * 1 :=
      (mul_lt_mul_left hb).mpr (Int.fract_lt_one _)
    _ = b := mul_one b

theorem splitOnChar_cons_of_ne {c x : Char} {xs : List Char} {p : List Char}
    {ps : List (List Char)} (h : ¬ x = c) (hsp : splitOnChar c xs = p :: ps) :
    splitOnChar c (x :: xs) = (x :: p) :: ps := by
  simp only [splitOnChar, if_neg h, hsp]

theorem splitOnChar_not_mem {c : Char} {l : List Char} (h : c ∉ l) :
    splitOnChar c l = [l] := by
  induction l with
  | nil => rfl
  | cons x xs ih =>
    have hx : ¬ x = c := fun he => h (he ▸ List.mem_cons_self x xs)
    exact splitOnChar_cons_of_ne hx (ih (fun hm => h (List.mem_cons_of_mem _ hm)))

theorem splitOnChar_ne_nil (c : Char) (l : List Char) : splitOnChar c l ≠ [] := by
  induction l with
  | nil => simp [splitOnChar]
  | cons x xs ih =>
    simp only [splitOnChar]
    split
    · simp
    · cases hsp : splitOnChar c xs with
      | nil => simp
      | cons p ps => simp

theorem splitOnChar_append {c : Char} {a : List Char} (b : List Char) (h : c ∉ a) :
    splitOnChar c (a ++ c :: b) = a :: splitOnChar c b := by
  induction a with
  | nil => simp [splitOnChar]
  | cons x xs ih =>
    have hx : ¬ x = c := fun he => h (he ▸ List.mem_cons_self x xs)
    have ih2 := ih (fun hm => h (List.mem_cons_of_mem _ hm))
    rw [List.cons_append]
    exact splitOnChar_cons_of_ne hx ih2

theorem digits_not_mem {l : List Char} (hd : ∀ c ∈ l, c.isDigit = true)
    {x : Char} (hx : x.isDigit = false) : x ∉ l := by
  intro hm
  rw [hd x hm] at hx
  exact absurd hx (by simp)

theorem intToChars_nonneg {i : ℤ} (h : 0 ≤ i) : intToChars i = natToChars i.toNat :=
  if_neg (by omega)

theorem padStart_zero_ne_nil (s : List Char) (n : ℕ) (h : s ≠ []) :
    padStart s n '0' ≠ [] := by
  simp [padStart, h]

/-- The timestamp codec round-trips exactly on non-negative values with
millisecond precision: all four fields of the formatted text parse back
to their numeric components, whose recombination is the original
value. -/
theorem parse_format_exact (q : ℚ) (h0 : 0 ≤ q) (hms : (1000 * q).den = 1) :
    parseTimestamp (formatTimestamp q) = some q := by
  obtain ⟨hr1e, hr1n, hr1u⟩ := jsRem_spec q 3600 h0 (by norm_num)
  obtain ⟨hs2e, hs2n, hs2u⟩ := jsRem_spec q 60 h0 (by norm_num)
  obtain ⟨hfre, hfrn, hfru⟩ := jsRem_spec q 1 h0 (by norm_num)
  rw [div_one] at hfre
  rw [one_mul] at hfre
  set H : ℤ := ⌊q / 3600⌋ with hH
  set M : ℤ := ⌊jsRem q 3600 / 60⌋ with hM
  set Sec : ℤ := ⌊jsRem q 60⌋ with hSec
  have hH0 : 0 ≤ H := Int.floor_nonneg.mpr (by positivity)
  have hM0 : 0 ≤ M := Int.floor_nonneg.mpr (by positivity)
  have hSec0 : 0 ≤ Sec := Int.floor_nonneg.mpr hs2n
  have hSecu : Sec < 60 := by
    rw [hSec]
    exact Int.floor_lt.mpr (by exact_mod_cast hs2u)
  have hq1 : q = 3600 * (H : ℚ) + jsRem q 3600 := by
    rw [hr1e, hH]
    ring
  have hq2 : ⌊q / 60⌋ = 60 * H + M := by
    have hdiv : q / 60 = ((60 * H : ℤ) : ℚ) + jsRem q 3600 / 60 := by
      push_cast
      linear_combination hq1 / 60
    rw [hdiv, Int.floor_int_add, hM]
  have hs2r : jsRem q 60 = jsRem q 3600 - 60 * (M : ℚ) := by
    rw [hs2e, hq2]
    push_cast
    linear_combination hq1
  have hqfloor : ⌊q⌋ = 60 * (60 * H + M) + Sec := by
    have hdiv : q = ((60 * (60 * H + M) : ℤ) : ℚ) + jsRem q 60 := by
      rw [hs2e, hq2]
      push_cast
      ring
    calc ⌊q⌋ = ⌊((60 * (60 * H + M) : ℤ) : ℚ) + jsRem q 60⌋ := by rw [← hdiv]
      _ = 60 * (60 * H + M) + Sec := by rw [Int.floor_int_add, hSec]
  have hfr2 : jsRem q 1 = jsRem q 60 - (Sec : ℚ) := by
    rw [hfre, hqfloor, hs2e, hq2]
    push_cast
    ring
  -- the millisecond remainder is an integer
  have hNum : (((1000 * q).num : ℤ) : ℚ) = 1000 * q := by
    have := Rat.num_div_den (1000 * q)
    rw [hms] at this
    simpa using this
  set MS : ℤ := (1000 * q).num - 1000 * ⌊q⌋ with hMS
  have hMSv : (MS : ℚ) = 1000 * jsRem q 1 := by
    rw [hMS, hfre]
    push_cast
    rw [hNum]
    ring
  have hMS0 : 0 ≤ MS := by
    have : (0 : ℚ) ≤ (MS : ℚ) := by
      rw [hMSv]
      positivity
    exact_mod_cast this
  have hMSu : MS < 1000 := by
    have : (MS : ℚ) < 1000 := by
      rw [hMSv]
      nlinarith [hfru]
    exact_mod_cast this
  have hmsv : jsRound (jsRem q 1 * 1000) = MS := by
    unfold jsRound
    have : jsRem q 1 * 1000 = (MS : ℚ) := by
      rw [hMSv]
      ring
    rw [this]
    rw [show (MS : ℚ) + 1 / 2 = ((MS : ℤ) : ℚ) + 1 / 2 from rfl, Int.floor_int_add]
    norm_num
  -- the formatted text
  have hfmt : formatTimestamp q =
      padStart (natToChars H.toNat) 2 '0' ++ ':' ::
        (padStart (natToChars M.toNat) 2 '0' ++ ':' ::
          (padStart (natToChars Sec.toNat) 2 '0' ++ '.' ::
            padStart (natToChars MS.toNat) 3 '0')) := by
    simp only [formatTimestamp, ← hH, ← hM, ← hSec, hmsv]
    rw [intToChars_nonneg hH0, intToChars_nonneg hM0, intToChars_nonneg hSec0,
      intToChars_nonneg hMS0]
  have hdA := padStart_digits (natToChars H.toNat) 2 (natToChars_digits _)
  have hdB := padStart_digits (natToChars M.toNat) 2 (natToChars_digits _)
  have hdC := padStart_digits (natToChars Sec.toNat) 2 (natToChars_digits _)
  have hdD := padStart_digits (natToChars MS.toNat) 3 (natToChars_digits _)
  have hsplit : splitOnChar ':' (formatTimestamp q) =
      [padStart (natToChars H.toNat) 2 '0',
       padStart (natToChars M.toNat) 2 '0',
       padStart (natToChars Sec.toNat) 2 '0' ++ '.' ::
         padStart (natToChars MS.toNat) 3 '0'] := by
    rw [hfmt, splitOnChar_append _ (digits_not_mem hdA (by decide)),
      splitOnChar_append _ (digits_not_mem hdB (by decide)),
      splitOnChar_not_mem (by
        intro hm
        rcases List.mem_append.mp hm with h1 | h1
        · exact digits_not_mem hdC (by decide) h1
        · rcases List.mem_cons.mp h1 with h2 | h2
          · exact absurd h2.symm (by decide)
          · exact digits_not_mem hdD (by decide) h2)]
  have hPA : jsParseInt (padStart (natToChars H.toNat) 2 '0') =
      some ((H.toNat : ℕ) : ℚ) := by
    rw [jsParseInt_digits _ (padStart_zero_ne_nil _ _ (natToChars_ne_nil _)) hdA,
      natOfChars_padStart, natOfChars_natToChars]
  have hPB : jsParseInt (padStart (natToChars M.toNat) 2 '0') =
      some ((M.toNat : ℕ) : ℚ) := by
    rw [jsParseInt_digits _ (padStart_zero_ne_nil _ _ (natToChars_ne_nil _)) hdB,
      natOfChars_padStart, natOfChars_natToChars]
  have hlenD : (padStart (natToChars MS.toNat) 3 '0').length = 3 := by
    rw [padStart_length]
    have : (natToChars MS.toNat).length ≤ 3 := by
      refine natToChars_length_le 3 _ ?_ (by omega)
      have : MS.toNat < 1000 := by omega
      calc MS.toNat < 1000 := this
        _ ≤ 10 ^ 3 := by norm_num
    omega
  have hPC : jsParseFloat (padStart (natToChars Sec.toNat) 2 '0' ++ '.' ::
      padStart (natToChars MS.toNat) 3 '0') =
      some ((Sec.toNat : ℚ) + (MS.toNat : ℚ) / 10 ^ 3) := by
    rw [jsParseFloat_digits_dot _ _ (padStart_zero_ne_nil _ _ (natToChars_ne_nil _))
      hdC hdD, natOfChars_padStart, natOfChars_natToChars, natOfChars_padStart,
      natOfChars_natToChars, hlenD]
  simp only [parseTimestamp, hsplit, List.length_cons, List.length_nil,
    List.getD_cons_zero, List.getD_cons_succ]
  norm_num
  rw [hPA, hPB, hPC]
  have hHt : ((H.toNat : ℕ) : ℚ) = (H : ℚ) := by
    exact_mod_cast Int.toNat_of_nonneg hH0
  have hMt : ((M.toNat : ℕ) : ℚ) = (M : ℚ) := by
    exact_mod_cast Int.toNat_of_nonneg hM0
  have hSt : ((Sec.toNat : ℕ) : ℚ) = (Sec : ℚ) := by
    exact_mod_cast Int.toNat_of_nonneg hSec0
  have hMSt : ((MS.toNat : ℕ) : ℚ) = (MS : ℚ) := by
    exact_mod_cast Int.toNat_of_nonneg hMS0
  rw [hHt, hMt, hSt, hMSt]
  have hfinal : q = 3600 * (H : ℚ) + 60 * (M : ℚ) + ((Sec : ℚ) + (MS : ℚ) / 1000) := by
    linear_combination hq1 - hs2r - hfr2 - hMSv / 1000
  rw [hfinal]
  norm_num
  ring

/-- C1: timestamp codec round-trip.  For every seconds value that is
non-negative and representable with millisecond precision (in
particular `0`, `5.25`, `90.5`, `3600`, `7265.123`),
`parseTimestamp (formatTimestamp s)` differs from `s` by strictly less
than `0.001` — in fact the round trip is exact. -/
theorem claim_C1 (s : ℚ) (h0 : 0 ≤ s) (hms : (1000 * s).den = 1) :
    ∃ v, parseTimestamp (formatTimestamp s) = some v ∧ |v - s| < 1 / 1000 :=
  ⟨s, parse_format_exact s h0 hms, by norm_num⟩

/-- Witness for C1 at `s = 7265.123`. -/
theorem claim_C1_witness :
    ∃ v, parseTimestamp (formatTimestamp (7265123 / 1000 : ℚ)) = some v ∧
      |v - 7265123 / 1000| < 1 / 1000 :=
  claim_C1 (7265123 / 1000) (by norm_num) (by norm_num)

theorem jsTrim_wrap (w1 core w2 : List Char) (hw1 : ∀ c ∈ w1, isWs c = true)
    (hw2 : ∀ c ∈ w2, isWs c = true) (hc : core ≠ [])
    (hh : ∀ c, core.head? = some c → isWs c = false)
    (hl : ∀ c, core.getLast? = some c → isWs c = false) :
    jsTrim (w1 ++ core ++ w2) = core := by
  obtain ⟨d, rest, rfl⟩ := List.exists_cons_of_ne_nil hc
  have h1 : (w1 ++ (d :: rest) ++ w2).dropWhile isWs = (d :: rest) ++ w2 := by
    rw [List.append_assoc, dropWhile_append_all _ _ _ hw1, List.cons_append,
      List.dropWhile_cons_of_neg (by simp [hh d rfl])]
  obtain ⟨lc, hlc⟩ : ∃ lc, (d :: rest).getLast? = some lc :=
    ⟨(d :: rest).getLast (by simp), List.getLast?_eq_getLast _ _⟩
  obtain ⟨tl, htl⟩ : ∃ tl, (d :: rest).reverse = lc :: tl := by
    have : (d :: rest).reverse.head? = some lc := by
      rw [List.head?_reverse]
      exact hlc
    cases hrev : (d :: rest).reverse with
    | nil => rw [hrev] at this; simp at this
    | cons a b =>
      rw [hrev] at this
      simp at this
      exact ⟨b, by rw [this]⟩
  have h2 : ((d :: rest) ++ w2).reverse.dropWhile isWs = (d :: rest).reverse := by
    rw [List.reverse_append, dropWhile_append_all _ _ _
      (fun c hcm => hw2 c (List.mem_reverse.mp hcm)), htl,
      List.dropWhile_cons_of_neg (by simp [hl lc hlc])]
  unfold jsTrim
  rw [h1, h2, List.reverse_reverse]

theorem jsTrim_eq_self (core : List Char) (hc : core ≠ [])
    (hh : ∀ c, core.head? = some c → isWs c = false)
    (hl : ∀ c, core.getLast? = some c → isWs c = false) :
    jsTrim core = core := by
  have := jsTrim_wrap [] core [] (by simp) (by simp) hc hh hl
  simpa using this

theorem containsSeq_iff (sep l : List Char) :
    containsSeq sep l = true ↔ sep <:+: l := by
  induction l with
  | nil =>
    simp [containsSeq, List.isPrefixOf_iff_prefix]
  | cons x xs ih =>
    simp only [containsSeq, Bool.or_eq_true, List.isPrefixOf_iff_prefix, ih,
      List.infix_cons_iff]

theorem containsSeq_part (a b : List Char) :
    containsSeq arrowSeq (a ++ (arrowSeq ++ b)) = true :=
  (containsSeq_iff _ _).mpr ⟨a, b, by simp⟩

theorem containsSeq_of_infix {l L : List Char} (h : containsSeq arrowSeq L = false)
    (hi : l <:+: L) : containsSeq arrowSeq l = false := by
  cases hcl : containsSeq arrowSeq l with
  | false => rfl
  | true =>
    have := ((containsSeq_iff _ _).mp hcl).trans hi
    rw [(containsSeq_iff _ _).mpr this] at h
    exact absurd h (by simp)

theorem splitOnChar_head_prefix {c : Char} :
    ∀ l hd tl, splitOnChar c l = hd :: tl → hd <+: l := by
  intro l
  induction l with
  | nil =>
    intro hd tl h
    simp only [splitOnChar, List.cons.injEq] at h
    rw [← h.1]
  | cons x xs ih =>
    intro hd tl h
    simp only [splitOnChar] at h
    split at h
    · rw [List.cons.injEq] at h
      rw [← h.1]
      exact List.nil_prefix
    · rename_i hx
      cases hsp : splitOnChar c xs with
      | nil => exact absurd hsp (splitOnChar_ne_nil c xs)
      | cons p ps =>
        rw [hsp, List.cons.injEq] at h
        rw [← h.1]
        exact List.cons_prefix_cons.mpr ⟨rfl, ih p ps hsp⟩

theorem splitOnChar_mem_infix_of {c : Char} :
    ∀ l p, p ∈ splitOnChar c l → p <:+: l := by
  intro l
  induction l with
  | nil =>
    intro p hp
    simp only [splitOnChar, List.mem_singleton] at hp
    rw [hp]
  | cons x xs ih =>
    intro p hp
    simp only [splitOnChar] at hp
    split at hp
    · rcases List.mem_cons.mp hp with h1 | h1
      · rw [h1]
        exact List.nil_infix
      · exact (ih p h1).trans (List.infix_cons (List.infix_refl xs))
    · rename_i hx
      cases hsp : splitOnChar c xs with
      | nil => exact absurd hsp (splitOnChar_ne_nil c xs)
      | cons q qs =>
        rw [hsp] at hp
        rcases List.mem_cons.mp hp with h1 | h1
        · rw [h1]
          exact ((List.cons_prefix_cons.mpr
            ⟨rfl, splitOnChar_head_prefix xs q qs hsp⟩)).isInfix
        · have : p ∈ splitOnChar c xs := by
            rw [hsp]
            exact List.mem_cons_of_mem _ h1
          exact (ih p this).trans (List.infix_cons (List.infix_refl xs))

theorem skipHeader_all_none {lines : List (List Char)}
    (h : ∀ l ∈ lines, containsSeq arrowSeq l = false) : skipHeader lines = [] := by
  induction lines with
  | nil => rfl
  | cons l ls ih =>
    simp only [skipHeader, h l (by simp)]
    exact ih (fun x hx => h x (List.mem_cons_of_mem _ hx))

theorem parseVTT_no_arrow (content : List Char)
    (h : containsSeq arrowSeq content = false) : parseVTT content = [] := by
  unfold parseVTT
  rw [skipHeader_all_none (fun l hl =>
    containsSeq_of_infix h (splitOnChar_mem_infix_of content l hl))]
  simp [parseCues]

theorem jsTrim_length_le (t : List Char) : (jsTrim t).length ≤ t.length := by
  unfold jsTrim
  calc ((t.dropWhile isWs).reverse.dropWhile isWs).reverse.length
      = ((t.dropWhile isWs).reverse.dropWhile isWs).length := List.length_reverse _
    _ ≤ (t.dropWhile isWs).reverse.length := (List.dropWhile_sublist _).length_le
    _ = (t.dropWhile isWs).length := List.length_reverse _
    _ ≤ t.length := (List.dropWhile_sublist _).length_le

theorem jsTrim_self_head {t : List Char} (ht : jsTrim t = t) :
    ∀ c, t.head? = some c → isWs c = false := by
  intro c hc
  by_contra hw
  rw [Bool.not_eq_false] at hw
  obtain ⟨rest, rfl⟩ : ∃ rest, t = c :: rest := by
    cases t with
    | nil => simp at hc
    | cons a b =>
      simp at hc
      exact ⟨b, by rw [hc]⟩
  have h1 : (c :: rest).dropWhile isWs = rest.dropWhile isWs :=
    List.dropWhile_cons_of_pos hw
  have h2 : (jsTrim (c :: rest)).length ≤ rest.length := by
    unfold jsTrim
    rw [h1]
    calc ((rest.dropWhile isWs).reverse.dropWhile isWs).reverse.length
        = ((rest.dropWhile isWs).reverse.dropWhile isWs).length := List.length_reverse _
      _ ≤ (rest.dropWhile isWs).reverse.length := (List.dropWhile_sublist _).length_le
      _ = (rest.dropWhile isWs).length := List.length_reverse _
      _ ≤ rest.length := (List.dropWhile_sublist _).length_le
  rw [ht] at h2
  simp at h2

theorem jsTrim_self_last {t : List Char} (ht : jsTrim t = t) (h0 : t ≠ []) :
    ∀ c, t.getLast? = some c → isWs c = false := by
  intro c hc
  by_contra hw
  rw [Bool.not_eq_false] at hw
  have hlen : (jsTrim t).length = t.length := by rw [ht]
  set d1 := t.dropWhile isWs with hd1
  cases hd1nil : d1 with
  | nil =>
    have : (jsTrim t).length = 0 := by
      unfold jsTrim
      rw [← hd1, hd1nil]
      simp
    rw [hlen] at this
    exact h0 (List.eq_nil_of_length_eq_zero this)
  | cons a b =>
    have hsuf : d1 <:+ t := List.dropWhile_suffix isWs
    obtain ⟨w, hw1⟩ := hsuf
    have hlast : d1.getLast? = some c := by
      have : t.getLast? = d1.getLast? := by
        rw [← hw1, List.getLast?_append, hd1nil,
          List.getLast?_eq_getLast (a :: b) (by simp)]
        rfl
      rw [← this]
      exact hc
    obtain ⟨tl, htl⟩ : ∃ tl, d1.reverse = c :: tl := by
      have : d1.reverse.head? = some c := by
        rw [List.head?_reverse]
        exact hlast
      cases hrev : d1.reverse with
      | nil => rw [hrev] at this; simp at this
      | cons x y =>
        rw [hrev] at this
        simp at this
        exact ⟨y, by rw [this]⟩
    have h2 : (jsTrim t).length ≤ tl.length := by
      unfold jsTrim
      rw [← hd1, htl, List.dropWhile_cons_of_pos hw]
      calc (tl.dropWhile isWs).reverse.length
          = (tl.dropWhile isWs).length := List.length_reverse _
        _ ≤ tl.length := (List.dropWhile_sublist _).length_le
    have h3 : tl.length + 1 = d1.length := by
      have := congrArg List.length htl
      simp at this
      omega
    have h4 : d1.length ≤ t.length := (List.dropWhile_sublist _).length_le
    omega

theorem all_chars_split {t : List Char}
    (h : t.all (fun c => c != '\n' && c != '\r') = true) :
    ∀ c ∈ t, c ≠ '\n' ∧ c ≠ '\r' := by
  intro c hc
  have := List.all_eq_true.mp h c hc
  simp at this
  exact this

theorem jsRound_nonneg {q : ℚ} (h : 0 ≤ q) : 0 ≤ jsRound q := by
  unfold jsRound
  exact Int.floor_nonneg.mpr (by linarith)

theorem formatTimestamp_decomp (q : ℚ) (h0 : 0 ≤ q) :
    ∃ A B C D : List Char,
      formatTimestamp q = A ++ ':' :: (B ++ ':' :: (C ++ '.' :: D)) ∧
      A ≠ [] ∧ B ≠ [] ∧ C ≠ [] ∧ D ≠ [] ∧
      (∀ c ∈ A, c.isDigit = true) ∧ (∀ c ∈ B, c.isDigit = true) ∧
      (∀ c ∈ C, c.isDigit = true) ∧ (∀ c ∈ D, c.isDigit = true) := by
  obtain ⟨hr1e, hr1n, hr1u⟩ := jsRem_spec q 3600 h0 (by norm_num)
  obtain ⟨hs2e, hs2n, hs2u⟩ := jsRem_spec q 60 h0 (by norm_num)
  obtain ⟨hfre, hfrn, hfru⟩ := jsRem_spec q 1 h0 (by norm_num)
  have hH0 : 0 ≤ ⌊q / 3600⌋ := Int.floor_nonneg.mpr (by positivity)
  have hM0 : 0 ≤ ⌊jsRem q 3600 / 60⌋ := Int.floor_nonneg.mpr (by positivity)
  have hSec0 : 0 ≤ ⌊jsRem q 60⌋ := Int.floor_nonneg.mpr hs2n
  have hMS0 : 0 ≤ jsRound (jsRem q 1 * 1000) := jsRound_nonneg (by positivity)
  refine ⟨padStart (intToChars ⌊q / 3600⌋) 2 '0',
    padStart (intToChars ⌊jsRem q 3600 / 60⌋) 2 '0',
    padStart (intToChars ⌊jsRem q 60⌋) 2 '0',
    padStart (intToChars (jsRound (jsRem q 1 * 1000))) 3 '0', rfl,
    ?_, ?_, ?_, ?_, ?_, ?_, ?_, ?_⟩
  · rw [intToChars_nonneg hH0]
    exact padStart_zero_ne_nil _ _ (natToChars_ne_nil _)
  · rw [intToChars_nonneg hM0]
    exact padStart_zero_ne_nil _ _ (natToChars_ne_nil _)
  · rw [intToChars_nonneg hSec0]
    exact padStart_zero_ne_nil _ _ (natToChars_ne_nil _)
  · rw [intToChars_nonneg hMS0]
    exact padStart_zero_ne_nil _ _ (natToChars_ne_nil _)
  · rw [intToChars_nonneg hH0]
    exact padStart_digits _ _ (natToChars_digits _)
  · rw [intToChars_nonneg hM0]
    exact padStart_digits _ _ (natToChars_digits _)
  · rw [intToChars_nonneg hSec0]
    exact padStart_digits _ _ (natToChars_digits _)
  · rw [intToChars_nonneg hMS0]
    exact padStart_digits _ _ (natToChars_digits _)

theorem formatTimestamp_chars (q : ℚ) (h0 : 0 ≤ q) :
    ∀ c ∈ formatTimestamp q, c.isDigit = true ∨ c = ':' ∨ c = '.' := by
  obtain ⟨A, B, C, D, he, _, _, _, _, hA, hB, hC, hD⟩ := formatTimestamp_decomp q h0
  rw [he]
  intro c hc
  rcases List.mem_append.mp hc with h1 | h1
  · exact Or.inl (hA c h1)
  rcases List.mem_cons.mp h1 with h1 | h1
  · exact Or.inr (Or.inl h1)
  rcases List.mem_append.mp h1 with h1 | h1
  · exact Or.inl (hB c h1)
  rcases List.mem_cons.mp h1 with h1 | h1
  · exact Or.inr (Or.inl h1)
  rcases List.mem_append.mp h1 with h1 | h1
  · exact Or.inl (hC c h1)
  rcases List.mem_cons.mp h1 with h1 | h1
  · exact Or.inr (Or.inr h1)
  · exact Or.inl (hD c h1)

theorem formatTimestamp_ne_nil (q : ℚ) (h0 : 0 ≤ q) : formatTimestamp q ≠ [] := by
  obtain ⟨A, B, C, D, he, hA0, _, _, _, _, _, _, _⟩ := formatTimestamp_decomp q h0
  rw [he]
  simp [hA0]

theorem formatTimestamp_head_digit (q : ℚ) (h0 : 0 ≤ q) :
    ∀ c, (formatTimestamp q).head? = some c → c.isDigit = true := by
  obtain ⟨A, B, C, D, he, hA0, _, _, _, hA, _, _, _⟩ := formatTimestamp_decomp q h0
  rw [he]
  intro c hc
  obtain ⟨a, as, rfl⟩ := List.exists_cons_of_ne_nil hA0
  simp at hc
  rw [← hc]
  exact hA a (by simp)

theorem formatTimestamp_last_digit (q : ℚ) (h0 : 0 ≤ q) :
    ∀ c, (formatTimestamp q).getLast? = some c → c.isDigit = true := by
  obtain ⟨A, B, C, D, he, _, _, _, hD0, _, _, _, hD⟩ := formatTimestamp_decomp q h0
  rw [he]
  intro c hc
  have h1 : (A ++ ':' :: (B ++ ':' :: (C ++ '.' :: D))).getLast? = D.getLast? := by
    rw [List.getLast?_append_of_ne_nil _ (by simp)]
    rw [show (':' :: (B ++ ':' :: (C ++ '.' :: D))) =
      [':'] ++ (B ++ ':' :: (C ++ '.' :: D)) from rfl]
    rw [List.getLast?_append_of_ne_nil _ (by simp)]
    rw [List.getLast?_append_of_ne_nil _ (by simp)]
    rw [show (':' :: (C ++ '.' :: D)) = [':'] ++ (C ++ '.' :: D) from rfl]
    rw [List.getLast?_append_of_ne_nil _ (by simp)]
    rw [List.getLast?_append_of_ne_nil _ (by simp [hD0])]
    rw [show ('.' :: D) = ['.'] ++ D from rfl]
    rw [List.getLast?_append_of_ne_nil _ hD0]
  rw [h1] at hc
  exact hD c (List.mem_of_getLast?_eq_some hc)

theorem arrowSeq_eq : arrowSeq = ['-', '-', '>'] := rfl

theorem str_arrow_eq : str " --> " = ' ' :: '-' :: '-' :: '>' :: ' ' :: [] := rfl

theorem arrow_not_prefixOf {x : Char} (xs : List Char) (hx : x ≠ '-') :
    arrowSeq.isPrefixOf (x :: xs) = false := by
  cases hp : arrowSeq.isPrefixOf (x :: xs) with
  | false => rfl
  | true =>
    have h1 := List.isPrefixOf_iff_prefix.mp hp
    rw [arrowSeq_eq] at h1
    exact absurd (List.cons_prefix_cons.mp h1).1.symm hx

theorem splitOnSeq_ne_nil (sep : List Char) (l : List Char) :
    splitOnSeq sep l ≠ [] := by
  cases l with
  | nil => simp [splitOnSeq]
  | cons x xs =>
    simp only [splitOnSeq]
    split
    · simp
    · cases hsp : splitOnSeq sep xs <;> simp

theorem splitOnSeq_cons_of_ne {x : Char} {xs p : List Char}
    {ps : List (List Char)} (hx : x ≠ '-')
    (hsp : splitOnSeq arrowSeq xs = p :: ps) :
    splitOnSeq arrowSeq (x :: xs) = (x :: p) :: ps := by
  simp only [splitOnSeq]
  rw [dif_neg (by
    intro hcon
    rw [arrow_not_prefixOf xs hx] at hcon
    exact absurd hcon.1 (by simp))]
  rw [hsp]

theorem splitOnSeq_no_dash {l : List Char} (h : ∀ c ∈ l, c ≠ '-') :
    splitOnSeq arrowSeq l = [l] := by
  induction l with
  | nil => simp [splitOnSeq]
  | cons x xs ih =>
    exact splitOnSeq_cons_of_ne (h x (by simp))
      (ih (fun c hc => h c (List.mem_cons_of_mem _ hc)))

theorem splitOnSeq_arrow_head (b : List Char) :
    splitOnSeq arrowSeq (arrowSeq ++ b) = [] :: splitOnSeq arrowSeq b := by
  rw [show arrowSeq ++ b = '-' :: ('-' :: '>' :: b) from by rw [arrowSeq_eq]; rfl]
  simp only [splitOnSeq]
  rw [dif_pos ⟨List.isPrefixOf_iff_prefix.mpr
    ⟨b, by rw [arrowSeq_eq]; rfl⟩, by rw [arrowSeq_eq]; simp⟩]
  rw [show ('-' :: ('-' :: '>' :: b)).drop arrowSeq.length = b from by
    rw [arrowSeq_eq]; rfl]

theorem splitOnSeq_arrow_append {a : List Char} (b : List Char)
    (ha : ∀ c ∈ a, c ≠ '-') :
    splitOnSeq arrowSeq (a ++ (arrowSeq ++ b)) = a :: splitOnSeq arrowSeq b := by
  induction a with
  | nil =>
    rw [List.nil_append]
    exact splitOnSeq_arrow_head b
  | cons x xs ih =>
    have ih2 := ih (fun c hc => ha c (List.mem_cons_of_mem _ hc))
    rw [List.cons_append]
    exact splitOnSeq_cons_of_ne (ha x (by simp)) ih2

theorem fmtChar_ne_dash {c : Char} (h : c.isDigit = true ∨ c = ':' ∨ c = '.') :
    c ≠ '-' := by
  rcases h with h | h | h
  · intro he
    rw [he] at h
    exact absurd h (by decide)
  · rw [h]; decide
  · rw [h]; decide

theorem fmtChar_ne_nl {c : Char} (h : c.isDigit = true ∨ c = ':' ∨ c = '.') :
    c ≠ '\n' := by
  rcases h with h | h | h
  · intro he
    rw [he] at h
    exact absurd h (by decide)
  · rw [h]; decide
  · rw [h]; decide

theorem fmtChar_not_ws {c : Char} (h : c.isDigit = true ∨ c = ':' ∨ c = '.') :
    isWs c = false := by
  rcases h with h | h | h
  · exact isDigit_not_ws h
  · rw [h]; decide
  · rw [h]; decide

theorem head?_append_of_ne_nil {l : List Char} (l' : List Char) (h : l ≠ []) :
    (l ++ l').head? = l.head? := by
  cases l with
  | nil => exact absurd rfl h
  | cons a b => simp

theorem all_chars_split2 {s : List Char}
    (h : s.all (fun c => c != '>' && c != '\n') = true) :
    ∀ c ∈ s, c ≠ '>' ∧ c ≠ '\n' := by
  intro c hc
  have := List.all_eq_true.mp h c hc
  simp at this
  exact this

theorem tsLine_eq (c : VTTCue) {qs qe : ℚ} (hs : c.start = some qs)
    (he2 : c.endTime = some qe) :
    tsLine c = formatTimestamp qs ++
      (' ' :: '-' :: '-' :: '>' :: ' ' :: formatTimestamp qe) := by
  simp only [tsLine, hs, he2, formatTimestampN, str_arrow_eq]
  simp [List.append_assoc]

theorem tsLine_reassoc (c : VTTCue) {qs qe : ℚ} (hs : c.start = some qs)
    (he2 : c.endTime = some qe) :
    tsLine c = (formatTimestamp qs ++ [' ']) ++
      (arrowSeq ++ (' ' :: formatTimestamp qe)) := by
  rw [tsLine_eq c hs he2, arrowSeq_eq]
  simp [List.append_assoc]

theorem tsLine_facts (c : VTTCue) {qs qe : ℚ} (hs : c.start = some qs)
    (he2 : c.endTime = some qe) (h0s : 0 ≤ qs) (h0e : 0 ≤ qe) :
    jsTrim (tsLine c) = tsLine c ∧
    containsSeq arrowSeq (tsLine c) = true ∧
    (splitOnSeq arrowSeq (tsLine c)).map jsTrim =
      [formatTimestamp qs, formatTimestamp qe] ∧
    (∀ ch ∈ tsLine c, ch ≠ '\n') := by
  have hF1 := formatTimestamp_chars qs h0s
  have hF2 := formatTimestamp_chars qe h0e
  have hF1n := formatTimestamp_ne_nil qs h0s
  have hF2n := formatTimestamp_ne_nil qe h0e
  refine ⟨?_, ?_, ?_, ?_⟩
  · refine jsTrim_eq_self _ ?_ ?_ ?_
    · rw [tsLine_eq c hs he2]
      simp [hF1n]
    · intro ch hch
      rw [tsLine_eq c hs he2, head?_append_of_ne_nil _ hF1n] at hch
      exact fmtChar_not_ws (formatTimestamp_chars qs h0s ch
        (by
          have := formatTimestamp_head_digit qs h0s ch hch
          exact List.mem_of_mem_head? hch))
    · intro ch hch
      rw [tsLine_eq c hs he2] at hch
      rw [List.getLast?_append_of_ne_nil _ (by simp)] at hch
      rw [show (' ' :: '-' :: '-' :: '>' :: ' ' :: formatTimestamp qe) =
        [' ', '-', '-', '>', ' '] ++ formatTimestamp qe from by simp] at hch
      rw [List.getLast?_append_of_ne_nil _ hF2n] at hch
      exact fmtChar_not_ws (hF2 ch (List.mem_of_getLast?_eq_some hch))
  · rw [tsLine_reassoc c hs he2]
    exact containsSeq_part _ _
  · rw [tsLine_reassoc c hs he2]
    rw [splitOnSeq_arrow_append _ (by
      intro ch hch
      rcases List.mem_append.mp hch with h1 | h1
      · exact fmtChar_ne_dash (hF1 ch h1)
      · rcases List.mem_singleton.mp h1 with rfl
        decide)]
    rw [splitOnSeq_no_dash (by
      intro ch hch
      rcases List.mem_cons.mp hch with h1 | h1
      · rcases h1 with rfl
        decide
      · exact fmtChar_ne_dash (hF2 ch h1))]
    simp only [List.map]
    have e1 : jsTrim (formatTimestamp qs ++ [' ']) = formatTimestamp qs := by
      have := jsTrim_wrap [] (formatTimestamp qs) [' '] (by simp) (by
          intro ch hch
          rcases List.mem_singleton.mp hch with rfl
          decide) hF1n
        (fun ch hch => fmtChar_not_ws (hF1 ch (List.mem_of_mem_head? hch)))
        (fun ch hch => fmtChar_not_ws (hF1 ch (List.mem_of_getLast?_eq_some hch)))
      simpa using this
    have e2 : jsTrim (' ' :: formatTimestamp qe) = formatTimestamp qe := by
      have := jsTrim_wrap [' '] (formatTimestamp qe) [] (by
          intro ch hch
          rcases List.mem_singleton.mp hch with rfl
          decide) (by simp) hF2n
        (fun ch hch => fmtChar_not_ws (hF2 ch (List.mem_of_mem_head? hch)))
        (fun ch hch => fmtChar_not_ws (hF2 ch (List.mem_of_getLast?_eq_some hch)))
      simpa using this
    rw [e1, e2]
  · rw [tsLine_eq c hs he2]
    intro ch hch
    rcases List.mem_append.mp hch with h1 | h1
    · exact fmtChar_ne_nl (hF1 ch h1)
    · rcases List.mem_cons.mp h1 with h2 | h2
      · rw [h2]; decide
      rcases List.mem_cons.mp h2 with h3 | h3
      · rw [h3]; decide
      rcases List.mem_cons.mp h3 with h4 | h4
      · rw [h4]; decide
      rcases List.mem_cons.mp h4 with h5 | h5
      · rw [h5]; decide
      rcases List.mem_cons.mp h5 with h6 | h6
      · rw [h6]; decide
      · exact fmtChar_ne_nl (hF2 ch h6)

theorem speakerMatch_tag (spk text : List Char) (hs0 : spk ≠ [])
    (hhw : isWs (spk.headD ' ') = false)
    (hgt : ∀ ch ∈ spk, ch ≠ '>')
    (htext : ∀ ch ∈ text, ch ≠ '\n' ∧ ch ≠ '\r') :
    speakerMatch (str "<v " ++ spk ++ '>' :: text) = some (spk, text) := by
  obtain ⟨s0, s', rfl⟩ := List.exists_cons_of_ne_nil hs0
  have hs0ws : isWs s0 = false := by simpa using hhw
  have hform : str "<v " ++ (s0 :: s') ++ '>' :: text =
      '<' :: 'v' :: (' ' :: ((s0 :: s') ++ '>' :: text)) := rfl
  rw [hform]
  have htw : ((' ' :: ((s0 :: s') ++ '>' :: text)).takeWhile isWs) = [' '] := by
    rw [List.takeWhile_cons_of_pos (by decide), List.cons_append,
      List.takeWhile_cons_of_neg (by simp [hs0ws])]
  have hpre : ((' ' :: ((s0 :: s') ++ '>' :: text)).takeWhile
      (fun c => c != '>')) = ' ' :: (s0 :: s') := by
    rw [List.takeWhile_cons_of_pos (by decide),
      takeWhile_append_all _ _ _ (fun ch hch => by simp [hgt ch hch]),
      List.takeWhile_cons_of_neg (by simp)]
    simp
  have hmem : '>' ∈ (' ' :: ((s0 :: s') ++ '>' :: text)) := by simp
  have hcont : ((' ' :: ((s0 :: s') ++ '>' :: text)).contains '>') = true :=
    List.elem_iff.mpr hmem
  have hdrop1 : (' ' :: ((s0 :: s') ++ '>' :: text)).drop 1 =
      (s0 :: s') ++ '>' :: text := rfl
  have htake : ((s0 :: s') ++ '>' :: text).take (s0 :: s').length = s0 :: s' :=
    List.take_left _ _
  have hdropg : (' ' :: ((s0 :: s') ++ '>' :: text)).drop (s'.length + 2 + 1) =
      text := by
    rw [show (' ' :: ((s0 :: s') ++ '>' :: text)) =
      ((' ' :: s0 :: s') ++ ['>']) ++ text from by simp]
    refine List.drop_left' ?_
    simp
  have htwt : text.takeWhile (fun c => c != '\n' && c != '\r') = text :=
    takeWhile_all _ _ (fun ch hch => by simp [(htext ch hch).1, (htext ch hch).2])
  simp only [speakerMatch, htw, hpre, hcont]
  rw [if_neg (by simp)]
  rw [if_neg (by
    simp only [List.length_cons]
    omega)]
  have hw0 : ([' '] : List Char).length = 1 := rfl
  have hg : (' ' :: s0 :: s').length = s'.length + 2 := by simp
  rw [hw0, hg]
  have hmin : min 1 (s'.length + 2 - 1) = 1 := by omega
  rw [hmin, hdrop1]
  have e1 : s'.length + 2 - 1 = (s0 :: s').length := by simp
  rw [e1, htake, hdropg, htwt]

theorem cueTextLine_plain (c : VTTCue) (hsp : c.speaker = none) :
    cueTextLine c = c.text := by
  simp [cueTextLine, hsp]

theorem cueTextLine_speaker (c : VTTCue) (spk : List Char)
    (hsp : c.speaker = some spk) (h0 : spk ≠ []) :
    cueTextLine c = str "<v " ++ spk ++ '>' :: c.text := by
  simp [cueTextLine, hsp, h0]

theorem processTextLines_good (c : VTTCue) (hg : goodCue c) :
    processTextLines [cueTextLine c] none = ([c.text], c.speaker) := by
  obtain ⟨hgs, hge, hgt, hgsp⟩ := hg
  obtain ⟨ht0, htr, htc, htm⟩ := hgt
  cases hspk : c.speaker with
  | none =>
    rw [cueTextLine_plain c hspk]
    simp only [processTextLines, htr, htm]
    simp [processTextLines, ht0]
  | some spk =>
    have hsp' : goodSpeakerP (some spk) := hspk ▸ hgsp
    obtain ⟨hs0, hhw, hall⟩ := hsp'
    have hchars := all_chars_split2 hall
    rw [cueTextLine_speaker c spk hspk hs0]
    have hline : jsTrim (str "<v " ++ spk ++ '>' :: c.text) =
        str "<v " ++ spk ++ '>' :: c.text := by
      refine jsTrim_eq_self _ (by simp [str]) ?_ ?_
      · intro ch hch
        have he : (str "<v " ++ spk ++ '>' :: c.text).head? = some '<' := rfl
        rw [he] at hch
        rw [← Option.some.inj hch]
        decide
      · intro ch hch
        rw [show str "<v " ++ spk ++ '>' :: c.text =
          (str "<v " ++ spk ++ ['>']) ++ c.text from by simp] at hch
        rw [List.getLast?_append_of_ne_nil _ ht0] at hch
        exact jsTrim_self_last htr ht0 ch hch
    simp only [processTextLines, hline]
    rw [speakerMatch_tag spk c.text hs0 hhw
      (fun ch hch => (hchars ch hch).1) (all_chars_split htc)]
    simp [processTextLines, ht0]

theorem intercalate_single (a : List Char) :
    List.intercalate [' '] [a] = a := by
  simp [List.intercalate]

theorem parseCues_cons_good (c : VTTCue) (hg : goodCue c)
    (L : List (List Char)) :
    parseCues (tsLine c :: cueTextLine c :: [] :: L) = c :: parseCues L := by
  have hg' := hg
  obtain ⟨hgs, hge, hgt, hgsp⟩ := hg'
  obtain ⟨ht0, htr, htc, htm⟩ := hgt
  obtain ⟨qs, hqs, h0s, hmss⟩ : ∃ qs, c.start = some qs ∧ 0 ≤ qs ∧
      (1000 * qs).den = 1 := by
    cases hcs : c.start with
    | none => rw [hcs] at hgs; exact absurd hgs (by simp [goodTimeVal])
    | some v =>
      rw [hcs] at hgs
      exact ⟨v, rfl, hgs.1, hgs.2⟩
  obtain ⟨qe, hqe, h0e, hmse⟩ : ∃ qe, c.endTime = some qe ∧ 0 ≤ qe ∧
      (1000 * qe).den = 1 := by
    cases hce : c.endTime with
    | none => rw [hce] at hge; exact absurd hge (by simp [goodTimeVal])
    | some v =>
      rw [hce] at hge
      exact ⟨v, rfl, hge.1, hge.2⟩
  obtain ⟨htsTrim, htsArrow, htsSplit, htsNl⟩ := tsLine_facts c hqs hqe h0s h0e
  have htxtTrim : (jsTrim (cueTextLine c)).isEmpty = false := by
    cases hspk : c.speaker with
    | none =>
      rw [cueTextLine_plain c hspk, htr]
      simpa using ht0
    | some spk =>
      have hsp' : goodSpeakerP (some spk) := hspk ▸ hgsp
      rw [cueTextLine_speaker c spk hspk hsp'.1]
      cases hjt : jsTrim (str "<v " ++ spk ++ '>' :: c.text) with
      | nil =>
        have hlen := congrArg List.length hjt
        have hle : (str "<v " ++ spk ++ '>' :: c.text).length =
            (jsTrim (str "<v " ++ spk ++ '>' :: c.text)).length := by
          have h1 : jsTrim (str "<v " ++ spk ++ '>' :: c.text) =
              str "<v " ++ spk ++ '>' :: c.text := by
            refine jsTrim_eq_self _ (by simp [str]) ?_ ?_
            · intro ch hch
              have he : (str "<v " ++ spk ++ '>' :: c.text).head? = some '<' := rfl
              rw [he] at hch
              rw [← Option.some.inj hch]
              decide
            · intro ch hch
              rw [show str "<v " ++ spk ++ '>' :: c.text =
                (str "<v " ++ spk ++ ['>']) ++ c.text from by simp] at hch
              rw [List.getLast?_append_of_ne_nil _ ht0] at hch
              exact jsTrim_self_last htr ht0 ch hch
          rw [h1]
        rw [hjt] at hle
        simp [str] at hle
      | cons a b => simp
  simp only [parseCues, htsTrim, htsArrow, if_true]
  rw [List.takeWhile_cons_of_pos (by rw [htxtTrim]; rfl),
    List.dropWhile_cons_of_pos (by rw [htxtTrim]; rfl)]
  rw [List.takeWhile_cons_of_neg (by simp [jsTrim]),
    List.dropWhile_cons_of_neg (by simp [jsTrim])]
  rw [htsSplit]
  simp only [List.getD_cons_zero, List.getD_cons_succ]
  rw [parse_format_exact qs h0s hmss, parse_format_exact qe h0e hmse]
  rw [processTextLines_good c hg]
  simp only [List.drop_succ_cons, List.drop_zero]
  rw [if_neg (by simpa using ht0)]
  rw [intercalate_single]
  cases c with
  | mk s e sp t =>
    simp only at hqs hqe
    rw [hqs, hqe]
    simp

unseal parseCues in
theorem parseCues_blank : parseCues [[]] = [] := by decide

theorem parseCues_blocks (cues : List VTTCue) (h : ∀ c ∈ cues, goodCue c) :
    parseCues ((cues.map (fun c => [tsLine c, cueTextLine c, ([] : List Char)])).flatten
      ++ [[]]) = cues := by
  induction cues with
  | nil => simpa using parseCues_blank
  | cons c rest ih =>
    simp only [List.map_cons, List.flatten_cons, List.cons_append,
      List.append_assoc]
    rw [parseCues_cons_good c (h c (by simp)) _]
    simp only [List.nil_append]
    rw [ih (fun x hx => h x (List.mem_cons_of_mem _ hx))]

theorem goodCue_val_start (c : VTTCue) (hg : goodCue c) :
    ∃ q, c.start = some q ∧ 0 ≤ q ∧ (1000 * q).den = 1 := by
  cases hcs : c.start with
  | none =>
    have := hg.1
    rw [hcs] at this
    exact absurd this (by simp [goodTimeVal])
  | some v =>
    have := hg.1
    rw [hcs] at this
    exact ⟨v, rfl, this.1, this.2⟩

theorem goodCue_val_end (c : VTTCue) (hg : goodCue c) :
    ∃ q, c.endTime = some q ∧ 0 ≤ q ∧ (1000 * q).den = 1 := by
  cases hcs : c.endTime with
  | none =>
    have := hg.2.1
    rw [hcs] at this
    exact absurd this (by simp [goodTimeVal])
  | some v =>
    have := hg.2.1
    rw [hcs] at this
    exact ⟨v, rfl, this.1, this.2⟩

theorem goodCue_ts_arrow (c : VTTCue) (hg : goodCue c) :
    containsSeq arrowSeq (tsLine c) = true := by
  obtain ⟨qs, hqs, h0s, _⟩ := goodCue_val_start c hg
  obtain ⟨qe, hqe, h0e, _⟩ := goodCue_val_end c hg
  exact (tsLine_facts c hqs hqe h0s h0e).2.1

theorem goodCue_nl (c : VTTCue) (hg : goodCue c) :
    (∀ ch ∈ tsLine c, ch ≠ '\n') ∧ (∀ ch ∈ cueTextLine c, ch ≠ '\n') := by
  obtain ⟨qs, hqs, h0s, _⟩ := goodCue_val_start c hg
  obtain ⟨qe, hqe, h0e, _⟩ := goodCue_val_end c hg
  refine ⟨(tsLine_facts c hqs hqe h0s h0e).2.2.2, ?_⟩
  have htext : ∀ ch ∈ c.text, ch ≠ '\n' ∧ ch ≠ '\r' :=
    all_chars_split hg.2.2.1.2.2.1
  cases hspk : c.speaker with
  | none =>
    rw [cueTextLine_plain c hspk]
    exact fun ch hch => (htext ch hch).1
  | some spk =>
    have hsp' : goodSpeakerP (some spk) := hspk ▸ hg.2.2.2
    rw [cueTextLine_speaker c spk hspk hsp'.1]
    intro ch hch
    rcases List.mem_append.mp hch with h1 | h1
    · rcases List.mem_append.mp h1 with h2 | h2
      · have h3 : ch = '<' ∨ ch = 'v' ∨ ch = ' ' := by
          simpa [str] using h2
        rcases h3 with rfl | rfl | rfl <;> decide
      · exact (all_chars_split2 hsp'.2.2 ch h2).2
    · rcases List.mem_cons.mp h1 with h2 | h2
      · rw [h2]; decide
      · exact (htext ch h2).1

theorem skipHeader_cons_arrow (l : List Char) (ls : List (List Char))
    (h : containsSeq arrowSeq l = true) : skipHeader (l :: ls) = l :: ls := by
  simp [skipHeader, h]

theorem skipHeader_cons_no (l : List Char) (ls : List (List Char))
    (h : containsSeq arrowSeq l = false) : skipHeader (l :: ls) = skipHeader ls := by
  simp [skipHeader, h]

theorem split_body (cues : List VTTCue)
    (h : ∀ c ∈ cues, (∀ ch ∈ tsLine c, ch ≠ '\n') ∧
      (∀ ch ∈ cueTextLine c, ch ≠ '\n')) :
    splitOnChar '\n' ((cues.map cueBlock).flatten) =
      (cues.map (fun c => [tsLine c, cueTextLine c, ([] : List Char)])).flatten
        ++ [[]] := by
  induction cues with
  | nil => simp [splitOnChar]
  | cons c rest ih =>
    have hc := h c (by simp)
    simp only [List.map_cons, List.flatten_cons]
    have hshape : cueBlock c ++ (rest.map cueBlock).flatten =
        tsLine c ++ '\n' :: (cueTextLine c ++ '\n' ::
          ('\n' :: (rest.map cueBlock).flatten)) := by
      simp [cueBlock, str, List.append_assoc]
    rw [hshape]
    rw [splitOnChar_append _ (fun hm => (hc.1 '\n' hm) rfl)]
    rw [splitOnChar_append _ (fun hm => (hc.2 '\n' hm) rfl)]
    rw [show splitOnChar '\n' ('\n' :: (rest.map cueBlock).flatten) =
      [] :: splitOnChar '\n' ((rest.map cueBlock).flatten) from by
        simp [splitOnChar]]
    rw [ih (fun x hx => h x (List.mem_cons_of_mem _ hx))]
    simp

theorem parseVTT_serializeVTT_good (cues : List VTTCue)
    (h : ∀ c ∈ cues, goodCue c) : parseVTT (serializeVTT cues) = cues := by
  have hnl := fun c hc => goodCue_nl c (h c hc)
  have hser : serializeVTT cues =
      str "WEBVTT" ++ '\n' :: ('\n' :: (cues.map cueBlock).flatten) := rfl
  unfold parseVTT
  rw [hser]
  rw [splitOnChar_append _ (by decide : '\n' ∉ str "WEBVTT")]
  rw [show splitOnChar '\n' ('\n' :: (cues.map cueBlock).flatten) =
    [] :: splitOnChar '\n' ((cues.map cueBlock).flatten) from by
      simp [splitOnChar]]
  rw [split_body cues hnl]
  rw [skipHeader_cons_no _ _ (by decide)]
  rw [skipHeader_cons_no _ _ (by decide)]
  cases cues with
  | nil =>
    rw [show (([] : List VTTCue).map
      (fun c => [tsLine c, cueTextLine c, ([] : List Char)])).flatten ++ [[]] =
      [[]] from by simp]
    rw [skipHeader_cons_no _ _ (by decide)]
    rw [show skipHeader [] = [] from rfl]
    simp [parseCues]
  | cons c rest =>
    simp only [List.map_cons, List.flatten_cons, List.cons_append,
      List.append_assoc]
    rw [skipHeader_cons_arrow _ _ (goodCue_ts_arrow c (h c (by simp)))]
    have := parseCues_blocks (c :: rest) h
    simp only [List.map_cons, List.flatten_cons, List.cons_append,
      List.append_assoc] at this
    exact this

/-- C2 (amended): the document round trip
`parseVTT (serializeVTT cues) = cues` holds exactly — hence lengths,
`start`, `end` (within 0.01 s), `speaker` and `text` are all preserved —
for cue sequences whose cues are well-formed for the serialized format:
times present, non-negative and millisecond-representable; text
non-empty, already trimmed, free of line terminators and not itself
starting with a `<v ...>` tag; speaker absent, or non-empty, not
starting with whitespace and free of `>` and newline. -/
theorem claim_C2 (cues : List VTTCue) (h : ∀ c ∈ cues, goodCue c) :
    parseVTT (serializeVTT cues) = cues :=
  parseVTT_serializeVTT_good cues h

unseal Rat.add Rat.mul Rat.sub Rat.inv in
/-- Witness for C2 (amended) on a concrete two-cue sequence. -/
theorem claim_C2_witness :
    parseVTT (serializeVTT [⟨some (5 / 2), some 4, some (str "Ann"), str "ok"⟩,
      ⟨some 9, some 10, none, str "later"⟩]) =
      [⟨some (5 / 2), some 4, some (str "Ann"), str "ok"⟩,
        ⟨some 9, some 10, none, str "later"⟩] :=
  claim_C2 _ (by decide)

unseal Rat.add Rat.mul Rat.sub Rat.inv natToChars splitOnSeq parseCues in
/-- Counterexample to C2 as stated: the cue
`{start 0, end 1, speaker none, text "<v Bob>hi"}` has single-line text
with no embedded blank line, yet the round trip returns it with
speaker `"Bob"` and text `"hi"` — the claim fails on speaker and
text. -/
theorem claim_C2_counterexample :
    parseVTT (serializeVTT [⟨some 0, some 1, none, str "<v Bob>hi"⟩]) =
      [⟨some 0, some 1, some (str "Bob"), str "hi"⟩] ∧
    parseVTT (serializeVTT [⟨some 0, some 1, none, str "<v Bob>hi"⟩]) ≠
      [⟨some 0, some 1, none, str "<v Bob>hi"⟩] := by
  constructor <;> decide

unseal Rat.add Rat.mul Rat.sub Rat.inv natToChars splitOnSeq parseCues in
/-- C6: speaker assignment in `parseVTT`.  A block whose text line is
`<v Alice>Hello there` yields speaker `"Alice"` and text
`"Hello there"`; a block with no `<v ...>` tag yields no speaker; and
when several text lines of one block carry speaker tags, the last match
wins while each matched line's tag prefix is stripped from its
contributed text.

The parser's loops are made semireducible here so that the kernel can
evaluate them on the concrete documents. -/
theorem claim_C6 :
    parseVTT (str "WEBVTT\n\n00:00:00.000 --> 00:00:01.000\n<v Alice>Hello there\n") =
      [⟨some 0, some 1, some (str "Alice"), str "Hello there"⟩] ∧
    parseVTT (str "WEBVTT\n\n00:00:00.000 --> 00:00:01.000\nHello there\n") =
      [⟨some 0, some 1, none, str "Hello there"⟩] ∧
    parseVTT (str "WEBVTT\n\n00:00:00.000 --> 00:00:01.000\n<v A>x\n<v B>y\n") =
      [⟨some 0, some 1, some (str "B"), str "x y"⟩] := by
  refine ⟨?_, ?_, ?_⟩ <;> decide

theorem mem_jsTrim {c : Char} {t : List Char} (h : c ∈ jsTrim t) : c ∈ t := by
  unfold jsTrim at h
  rw [List.mem_reverse] at h
  have h2 : c ∈ (t.dropWhile isWs).reverse :=
    (List.dropWhile_sublist isWs).mem h
  rw [List.mem_reverse] at h2
  exact (List.dropWhile_sublist isWs).mem h2

theorem intercalate_three (a b c : List Char) :
    List.intercalate [' '] [a, b, c] = a ++ ' ' :: (b ++ ' ' :: c) := by
  simp [List.intercalate]

unseal Rat.add Rat.mul Rat.sub Rat.inv natToChars splitOnSeq parseCues in
/-- C7: multi-line collapse.  Parsing a cue block whose text spans three
consecutive non-blank lines (none of which begins a speaker tag) yields
exactly one cue whose text is the three trimmed fragments joined by
single spaces, with no newline retained in the result. -/
theorem claim_C7 (t1 t2 t3 : List Char)
    (hn1 : ∀ ch ∈ t1, ch ≠ '\n') (hn2 : ∀ ch ∈ t2, ch ≠ '\n')
    (hn3 : ∀ ch ∈ t3, ch ≠ '\n')
    (hb1 : jsTrim t1 ≠ []) (hb2 : jsTrim t2 ≠ []) (hb3 : jsTrim t3 ≠ [])
    (hm1 : speakerMatch (jsTrim t1) = none)
    (hm2 : speakerMatch (jsTrim t2) = none)
    (hm3 : speakerMatch (jsTrim t3) = none) :
    parseVTT (str "WEBVTT\n\n00:00:00.000 --> 00:00:02.000\n" ++
        (t1 ++ '\n' :: (t2 ++ '\n' :: t3))) =
      [⟨some 0, some 2, none,
        jsTrim t1 ++ ' ' :: (jsTrim t2 ++ ' ' :: jsTrim t3)⟩] ∧
    ∀ ch ∈ jsTrim t1 ++ ' ' :: (jsTrim t2 ++ ' ' :: jsTrim t3), ch ≠ '\n' := by
  constructor
  · have hds : str "WEBVTT\n\n00:00:00.000 --> 00:00:02.000\n" ++
        (t1 ++ '\n' :: (t2 ++ '\n' :: t3)) =
        str "WEBVTT" ++ '\n' :: ('\n' ::
          (str "00:00:00.000 --> 00:00:02.000" ++ '\n' ::
            (t1 ++ '\n' :: (t2 ++ '\n' :: t3)))) := rfl
    unfold parseVTT
    rw [hds]
    rw [splitOnChar_append _ (by decide : '\n' ∉ str "WEBVTT")]
    rw [show splitOnChar '\n' ('\n' ::
        (str "00:00:00.000 --> 00:00:02.000" ++ '\n' ::
          (t1 ++ '\n' :: (t2 ++ '\n' :: t3)))) =
      [] :: splitOnChar '\n' (str "00:00:00.000 --> 00:00:02.000" ++ '\n' ::
          (t1 ++ '\n' :: (t2 ++ '\n' :: t3))) from by simp [splitOnChar]]
    rw [splitOnChar_append _ (by decide : '\n' ∉ str "00:00:00.000 --> 00:00:02.000")]
    rw [splitOnChar_append _ (fun hm => (hn1 '\n' hm) rfl)]
    rw [splitOnChar_append _ (fun hm => (hn2 '\n' hm) rfl)]
    rw [splitOnChar_not_mem (fun hm => (hn3 '\n' hm) rfl)]
    rw [skipHeader_cons_no _ _ (by decide)]
    rw [skipHeader_cons_no _ _ (by decide)]
    rw [skipHeader_cons_arrow _ _ (by decide)]
    have e0 : jsTrim (str "00:00:00.000 --> 00:00:02.000") =
        str "00:00:00.000 --> 00:00:02.000" := by decide
    have e1 : containsSeq arrowSeq (str "00:00:00.000 --> 00:00:02.000") = true := by
      decide
    have e2 : (splitOnSeq arrowSeq (str "00:00:00.000 --> 00:00:02.000")).map jsTrim =
        [str "00:00:00.000", str "00:00:02.000"] := by decide
    have e3 : parseTimestamp (str "00:00:00.000") = some 0 := by decide
    have e4 : parseTimestamp (str "00:00:02.000") = some 2 := by decide
    have q1 : (jsTrim t1).isEmpty = false := by simpa using hb1
    have q2 : (jsTrim t2).isEmpty = false := by simpa using hb2
    have q3 : (jsTrim t3).isEmpty = false := by simpa using hb3
    simp only [parseCues, e0, e1, if_true, e2, List.getD_cons_zero,
      List.getD_cons_succ, e3, e4]
    rw [List.takeWhile_cons_of_pos (by rw [q1]; rfl),
      List.takeWhile_cons_of_pos (by rw [q2]; rfl),
      List.takeWhile_cons_of_pos (by rw [q3]; rfl),
      List.dropWhile_cons_of_pos (by rw [q1]; rfl),
      List.dropWhile_cons_of_pos (by rw [q2]; rfl),
      List.dropWhile_cons_of_pos (by rw [q3]; rfl)]
    simp only [List.takeWhile_nil, List.dropWhile_nil]
    simp only [processTextLines, hm1, hm2, hm3, q1, q2, q3]
    simp only [Bool.false_eq_true, if_false, List.isEmpty_cons, List.drop_nil]
    rw [show parseCues [] = [] from by simp [parseCues]]
    rw [intercalate_three]
    simp
  · intro ch hch
    rcases List.mem_append.mp hch with h1 | h1
    · exact fun he => (hn1 ch (mem_jsTrim h1)) he
    rcases List.mem_cons.mp h1 with h1 | h1
    · rw [h1]; decide
    rcases List.mem_append.mp h1 with h1 | h1
    · exact fun he => (hn2 ch (mem_jsTrim h1)) he
    rcases List.mem_cons.mp h1 with h1 | h1
    · rw [h1]; decide
    · exact fun he => (hn3 ch (mem_jsTrim h1)) he

unseal Rat.add Rat.mul Rat.sub Rat.inv natToChars splitOnSeq parseCues in
/-- Witness for C7 on the fragments `alpha`, `beta`, `gamma`. -/
theorem claim_C7_witness :
    parseVTT (str "WEBVTT\n\n00:00:00.000 --> 00:00:02.000\n" ++
        (str "alpha" ++ '\n' :: (str "beta" ++ '\n' :: str "gamma"))) =
      [⟨some 0, some 2, none,
        jsTrim (str "alpha") ++ ' ' ::
          (jsTrim (str "beta") ++ ' ' :: jsTrim (str "gamma"))⟩] ∧
    ∀ ch ∈ jsTrim (str "alpha") ++ ' ' ::
        (jsTrim (str "beta") ++ ' ' :: jsTrim (str "gamma")), ch ≠ '\n' :=
  claim_C7 (str "alpha") (str "beta") (str "gamma") (by decide) (by decide)
    (by decide) (by decide) (by decide) (by decide) (by decide) (by decide)
    (by decide)

unseal Rat.add Rat.mul Rat.sub Rat.inv natToChars splitOnSeq parseCues in
/-- C8: silent empty outcomes of `parseVTT`.  Any input without a
`-->` occurrence — in particular a header-only document — parses to the
empty cue sequence, and a timestamp block whose only text line is empty
after speaker-tag stripping produces no cue. -/
theorem claim_C8 :
    (∀ content : List Char, containsSeq arrowSeq content = false →
      parseVTT content = []) ∧
    parseVTT (str "WEBVTT\n\n") = [] ∧
    parseVTT (str "WEBVTT\n\n00:00:00.000 --> 00:00:01.000\n<v Alice>\n") = [] := by
  refine ⟨parseVTT_no_arrow, ?_, ?_⟩ <;> decide

/-- Witness for C8 applying the universally quantified part to a
concrete arrow-free input. -/
theorem claim_C8_witness : parseVTT (str "hello\nworld, no cues here") = [] :=
  claim_C8.1 (str "hello\nworld, no cues here") (by decide)

unseal Rat.add Rat.mul Rat.sub Rat.inv natToChars splitOnSeq parseCues in
/-- C10 (implicit): a cue whose speaker is the empty string serializes
to the same bytes as the same cue with no speaker — the `<v >` tag is
not emitted for a falsy (empty) speaker — and consequently an
empty-string speaker comes back as `none` after a serialize/parse round
trip. -/
theorem claim_C10 :
    (∀ c : VTTCue, cueBlock { c with speaker := some [] } =
      cueBlock { c with speaker := none }) ∧
    (∀ (cues : List VTTCue) (s e : Option ℚ) (t : List Char),
      serializeVTT (⟨s, e, some [], t⟩ :: cues) =
        serializeVTT (⟨s, e, none, t⟩ :: cues)) ∧
    parseVTT (serializeVTT [⟨some 0, some 1, some [], str "hi"⟩]) =
      [⟨some 0, some 1, none, str "hi"⟩] := by
  refine ⟨?_, ?_, ?_⟩
  · intro c
    simp [cueBlock, cueTextLine, tsLine]
  · intro cues s e t
    simp [serializeVTT, cueBlock, cueTextLine, tsLine]
  · decide

theorem getD_map_range {α : Type} (g : ℕ → α) (k i : ℕ) (d : α) (h : i < k) :
    ((List.range k).map g).getD i d = g i := by
  rw [List.getD_eq_getElem?_getD, List.getElem?_map, List.getElem?_range h]
  rfl

/-- C4: chunk count and coverage of `splitAudio`.  For positive total
and maximum durations: when the total fits in one chunk the plan is a
single chunk at offset 0 covering everything; otherwise there are
exactly `⌈total / max⌉` chunks, every chunk except the last has duration
`total / count`, the last has `total - lastOffset`, chunk `i` starts at
`i * (total / count)` (so the chunks tile `[0, total)` with no gap or
overlap), and the durations sum to `total` exactly (hence within
`1e-6`). -/
theorem claim_C4 (f : List Char) (t m : ℚ) (ht : 0 < t) (hm : 0 < m) :
    (t ≤ m → splitAudio f t m = [⟨f, 0, t⟩]) ∧
    (m < t →
      (splitAudio f t m).length = (⌈t / m⌉).toNat ∧
      (∀ i, i + 1 < (⌈t / m⌉).toNat →
        ((splitAudio f t m).getD i ⟨[], 0, 0⟩).duration = t / (⌈t / m⌉ : ℚ)) ∧
      ((splitAudio f t m).getD ((⌈t / m⌉).toNat - 1) ⟨[], 0, 0⟩).duration =
        t - (((⌈t / m⌉).toNat - 1 : ℕ) : ℚ) * (t / (⌈t / m⌉ : ℚ)) ∧
      ((splitAudio f t m).map AudioChunk.duration).sum = t ∧
      (∀ i, i < (⌈t / m⌉).toNat →
        ((splitAudio f t m).getD i ⟨[], 0, 0⟩).offset =
          (i : ℚ) * (t / (⌈t / m⌉ : ℚ)))) := by
  constructor
  · intro hle
    simp [splitAudio, hle]
  · intro hmt
    have hnle : ¬ t ≤ m := not_le.mpr hmt
    have hn1 : 1 < ⌈t / m⌉ := Int.lt_ceil.mpr (by
      rw [lt_div_iff hm]
      push_cast
      linarith)
    have hkz : ((⌈t / m⌉).toNat : ℤ) = ⌈t / m⌉ := Int.toNat_of_nonneg (by omega)
    have hk2 : 2 ≤ (⌈t / m⌉).toNat := by omega
    have hsplit : splitAudio f t m =
        (List.range (⌈t / m⌉).toNat).map (fun (i : ℕ) =>
          ⟨str "chunk_" ++ padStart (natToChars (i + 1)) 2 '0' ++ str ".ogg",
            (i : ℚ) * (t / (⌈t / m⌉ : ℚ)),
            if (i : ℤ) < ⌈t / m⌉ - 1 then t / (⌈t / m⌉ : ℚ)
            else t - (i : ℚ) * (t / (⌈t / m⌉ : ℚ))⟩) := by
      simp [splitAudio, hnle]
    refine ⟨?_, ?_, ?_, ?_, ?_⟩
    · rw [hsplit, List.length_map, List.length_range]
    · intro i hi
      rw [hsplit, getD_map_range _ _ _ _ (by omega)]
      simp only
      rw [if_pos (by omega)]
    · rw [hsplit, getD_map_range _ _ _ _ (by omega)]
      simp only
      rw [if_neg (by omega)]
    · rw [hsplit, List.map_map]
      have hkeq : (⌈t / m⌉).toNat = ((⌈t / m⌉).toNat - 1) + 1 := by omega
      rw [hkeq, List.range_succ, List.map_append]
      rw [List.sum_append]
      have hconst : (List.range ((⌈t / m⌉).toNat - 1)).map
          ((fun c => AudioChunk.duration c) ∘ (fun (i : ℕ) =>
            (⟨str "chunk_" ++ padStart (natToChars (i + 1)) 2 '0' ++ str ".ogg",
              (i : ℚ) * (t / (⌈t / m⌉ : ℚ)),
              if (i : ℤ) < ⌈t / m⌉ - 1 then t / (⌈t / m⌉ : ℚ)
              else t - (i : ℚ) * (t / (⌈t / m⌉ : ℚ))⟩ : AudioChunk))) =
          (List.range ((⌈t / m⌉).toNat - 1)).map (fun _ => t / (⌈t / m⌉ : ℚ)) := by
        refine List.map_congr_left ?_
        intro i hi
        rw [List.mem_range] at hi
        simp only [Function.comp_apply]
        rw [if_pos (by omega)]
      rw [hconst]
      simp only [List.map_cons, List.map_nil, List.sum_cons, List.sum_nil,
        Function.comp_apply]
      rw [if_neg (by omega)]
      rw [List.map_const', List.sum_replicate]
      simp only [List.length_range, smul_eq_mul]
      ring
    · intro i hi
      rw [hsplit, getD_map_range _ _ _ _ hi]

/-- Witness for C4: a total of 1200 s with a 1200 s maximum is one
chunk. -/
theorem claim_C4_witness :
    splitAudio (str "a.ogg") 1200 1200 = [⟨str "a.ogg", 0, 1200⟩] :=
  (claim_C4 (str "a.ogg") 1200 1200 (by norm_num) (by norm_num)).1 (by norm_num)

/-- Counterexample to C5 as stated: planning chunks for a zero total
duration returns one zero-length chunk (the `total ≤ max` branch), not
an empty sequence. -/
theorem claim_C5_counterexample :
    splitAudio (str "a.wav") 0 1000 = [⟨str "a.wav", 0, 0⟩] ∧
    splitAudio (str "a.wav") 0 1000 ≠ [] := by
  have h : splitAudio (str "a.wav") 0 1000 = [⟨str "a.wav", 0, 0⟩] := by
    norm_num [splitAudio]
  exact ⟨h, by rw [h]; simp⟩

/-- C5 (amended): for every positive maximum chunk duration,
`calculateChunkCount 0 m = ⌈0/m⌉ = 0`, but `splitAudio` itself returns
one zero-length chunk for a zero total duration (the `total ≤ max`
branch fires), not an empty sequence. -/
theorem claim_C5 (f : List Char) (m : ℚ) (hm : 0 < m) :
    splitAudio f 0 m = [⟨f, 0, 0⟩] ∧ calculateChunkCount 0 m = 0 := by
  constructor
  · norm_num [splitAudio, hm.le]
  · norm_num [calculateChunkCount]

/-- Witness for C5 (amended) at `m = 1000`. -/
theorem claim_C5_witness :
    splitAudio (str "a.wav") 0 1000 = [⟨str "a.wav", 0, 0⟩] ∧
    calculateChunkCount 0 1000 = 0 :=
  claim_C5 (str "a.wav") 1000 (by norm_num)

theorem sortInsert_perm (x : VTTCue) (l : List VTTCue) :
    (sortInsert x l).Perm (x :: l) := by
  induction l with
  | nil => exact List.Perm.refl _
  | cons b bs ih =>
    simp only [sortInsert]
    split
    · exact List.Perm.refl _
    · exact List.Perm.trans (List.Perm.cons b ih) (List.Perm.swap x b bs)

theorem sortCues_perm (l : List VTTCue) : (sortCues l).Perm l := by
  induction l with
  | nil => exact List.Perm.refl _
  | cons x xs ih =>
    exact List.Perm.trans (sortInsert_perm x (sortCues xs)) (List.Perm.cons x ih)

theorem jsLeStart_true {a b : VTTCue} {x y : ℚ} (ha : a.start = some x)
    (hb : b.start = some y) (h : jsLeStart a b = true) : x ≤ y := by
  unfold jsLeStart at h
  rw [ha, hb] at h
  simpa using h

theorem jsLeStart_false {a b : VTTCue} {x y : ℚ} (ha : a.start = some x)
    (hb : b.start = some y) (h : jsLeStart a b = false) : y ≤ x := by
  unfold jsLeStart at h
  rw [ha, hb] at h
  simp at h
  linarith

theorem cueStartLe_of_le {a b : VTTCue} {x y : ℚ} (ha : a.start = some x)
    (hb : b.start = some y) (h : x ≤ y) : cueStartLe a b := by
  intro u v hu hv
  rw [ha] at hu
  rw [hb] at hv
  rw [← Option.some.inj hu, ← Option.some.inj hv]
  exact h

theorem sortInsert_pairwise (x : VTTCue) (l : List VTTCue)
    (hx : x.start ≠ none) (hl : ∀ c ∈ l, c.start ≠ none)
    (hp : l.Pairwise cueStartLe) :
    (sortInsert x l).Pairwise cueStartLe := by
  induction l with
  | nil => simp [sortInsert]
  | cons b bs ih =>
    obtain ⟨sx, hsx⟩ := Option.ne_none_iff_exists'.mp hx
    obtain ⟨sb, hsb⟩ := Option.ne_none_iff_exists'.mp (hl b (by simp))
    rw [List.pairwise_cons] at hp
    simp only [sortInsert]
    split
    · rename_i hle
      rw [List.pairwise_cons]
      constructor
      · intro c hc
        rcases List.mem_cons.mp hc with rfl | hc2
        · exact cueStartLe_of_le hsx hsb (jsLeStart_true hsx hsb hle)
        · obtain ⟨sc, hsc⟩ := Option.ne_none_iff_exists'.mp
            (hl c (List.mem_cons_of_mem _ hc2))
          exact cueStartLe_of_le hsx hsc
            (le_trans (jsLeStart_true hsx hsb hle) (hp.1 c hc2 sb sc hsb hsc))
      · exact List.pairwise_cons.mpr hp
    · rename_i hnle
      rw [List.pairwise_cons]
      have hle' : jsLeStart x b = false := by
        cases h : jsLeStart x b with
        | false => rfl
        | true => exact absurd h hnle
      constructor
      · intro c hc
        rw [(sortInsert_perm x bs).mem_iff] at hc
        rcases List.mem_cons.mp hc with rfl | hc2
        · exact cueStartLe_of_le hsb hsx (jsLeStart_false hsx hsb hle')
        · exact hp.1 c hc2
      · exact ih (fun c hc => hl c (List.mem_cons_of_mem _ hc)) hp.2

theorem sortCues_pairwise (l : List VTTCue)
    (hl : ∀ c ∈ l, c.start ≠ none) :
    (sortCues l).Pairwise cueStartLe := by
  induction l with
  | nil => simp [sortCues]
  | cons x xs ih =>
    refine sortInsert_pairwise x (sortCues xs) (hl x (by simp)) ?_
      (ih (fun c hc => hl c (List.mem_cons_of_mem _ hc)))
    intro c hc
    rw [(sortCues_perm xs).mem_iff] at hc
    exact hl c (List.mem_cons_of_mem _ hc)

unseal Rat.add Rat.mul Rat.sub Rat.inv natToChars splitOnSeq parseCues in
/-- C3: merge semantics.  `mergeVTT` serializes exactly the multiset of
cues obtained by parsing each document and shifting every cue by that
document's offset (stated as: the serialized list is a permutation of
the shifted concatenation), and — whenever every parsed start time is a
number — that list is in non-decreasing start order.  Concretely, a cue
`0 → 2` merged under offset 10 appears as `10 → 12`, and merging a
`start = 10` document with a `start = 1` document (both offset 0) puts
the `start = 1` cue first. -/
theorem claim_C3 :
    (∀ chunks : List VTTChunk,
      mergeVTT chunks = serializeVTT (sortCues ((chunks.map (fun ch =>
        (parseVTT ch.vtt).map (shiftCue ch.offset))).flatten)) ∧
      (sortCues ((chunks.map (fun ch =>
        (parseVTT ch.vtt).map (shiftCue ch.offset))).flatten)).Perm
        ((chunks.map (fun ch =>
          (parseVTT ch.vtt).map (shiftCue ch.offset))).flatten) ∧
      ((∀ c ∈ (chunks.map (fun ch =>
          (parseVTT ch.vtt).map (shiftCue ch.offset))).flatten,
            c.start ≠ none) →
        (sortCues ((chunks.map (fun ch =>
          (parseVTT ch.vtt).map (shiftCue ch.offset))).flatten)).Pairwise
          cueStartLe)) ∧
    mergeVTT [⟨str "WEBVTT\n\n00:00:00.000 --> 00:00:02.000\nhi\n", 10⟩] =
      str "WEBVTT\n\n00:00:10.000 --> 00:00:12.000\nhi\n\n" ∧
    mergeVTT [⟨str "WEBVTT\n\n00:00:10.000 --> 00:00:11.000\na\n", 0⟩,
        ⟨str "WEBVTT\n\n00:00:01.000 --> 00:00:02.000\nb\n", 0⟩] =
      str "WEBVTT\n\n00:00:01.000 --> 00:00:02.000\nb\n\n00:00:10.000 --> 00:00:11.000\na\n\n" := by
  refine ⟨fun chunks => ⟨rfl, sortCues_perm _, fun h => sortCues_pairwise _ h⟩,
    ?_, ?_⟩ <;> decide

unseal Rat.add Rat.mul Rat.sub Rat.inv natToChars splitOnSeq parseCues in
/-- Witness for C3: the sortedness part applied to a concrete two-chunk
merge, with the all-numeric-starts hypothesis discharged by
computation. -/
theorem claim_C3_witness :
    (sortCues ((([⟨str "WEBVTT\n\n00:00:10.000 --> 00:00:11.000\na\n", 0⟩,
      ⟨str "WEBVTT\n\n00:00:01.000 --> 00:00:02.000\nb\n", 0⟩] :
        List VTTChunk).map (fun ch =>
        (parseVTT ch.vtt).map (shiftCue ch.offset))).flatten)).Pairwise
      cueStartLe :=
  (claim_C3.1 ([⟨str "WEBVTT\n\n00:00:10.000 --> 00:00:11.000\na\n", 0⟩,
    ⟨str "WEBVTT\n\n00:00:01.000 --> 00:00:02.000\nb\n", 0⟩] :
      List VTTChunk)).2.2 (by decide)

theorem updateLast_length {α : Type} (f : α → α) (l : List α) :
    (updateLast f l).length = l.length := by
  induction l with
  | nil => rfl
  | cons a rest ih =>
    cases rest with
    | nil => rfl
    | cons b bs =>
      simp only [updateLast, List.length_cons] at ih ⊢
      omega

theorem updateLast_append_singleton {α : Type} (f : α → α) (cs : List α) (c : α) :
    updateLast f (cs ++ [c]) = cs ++ [f c] := by
  induction cs with
  | nil => rfl
  | cons a rest ih =>
    cases hr : rest ++ [c] with
    | nil => exact absurd hr (by simp)
    | cons b bs =>
      simp only [List.cons_append, updateLast, hr]
      rw [← hr, ih]

theorem parseGeminiStep_none_length (cues : List VTTCue) (l : List Char)
    (h : geminiMatch l = none) :
    (parseGeminiStep cues l).length ≤ max cues.length 1 := by
  simp only [parseGeminiStep, h]
  split
  · rw [updateLast_length]
    exact le_max_left _ _
  · split
    · simp
    · exact le_max_left _ _

theorem foldl_gemini_length (lines : List (List Char)) :
    ∀ cs : List VTTCue, (∀ l ∈ lines, geminiMatch l = none) →
    (lines.foldl parseGeminiStep cs).length ≤ max cs.length 1 := by
  induction lines with
  | nil =>
    intro cs _
    exact le_max_left _ _
  | cons l ls ih =>
    intro cs h
    calc (List.foldl parseGeminiStep (parseGeminiStep cs l) ls).length
        ≤ max (parseGeminiStep cs l).length 1 :=
          ih _ (fun x hx => h x (List.mem_cons_of_mem _ hx))
      _ ≤ max (max cs.length 1) 1 :=
          max_le_max_right 1 (parseGeminiStep_none_length cs l (h l (by simp)))
      _ = max cs.length 1 := by omega

/-- C9: best-effort free-text parsing in `parseGeminiTranscript`.  A
non-blank line that does not match the bracketed-timestamp pattern is
appended (space-separated, trimmed) to the previous cue's text, or —
when no cue exists yet — opens an implicit cue anchored at time 0; and
an input none of whose lines matches the pattern yields at most one cue
(the parser is total, so no input raises an error). -/
theorem claim_C9 :
    (∀ text : List Char,
      (∀ l ∈ splitOnChar '\n' text, geminiMatch l = none) →
      (parseGeminiTranscript text).length ≤ 1) ∧
    (∀ (cs : List VTTCue) (c : VTTCue) (l : List Char),
      geminiMatch l = none → jsTrim l ≠ [] →
      parseGeminiStep (cs ++ [c]) l =
        cs ++ [{ c with text := c.text ++ ' ' :: jsTrim l }]) ∧
    (∀ l : List Char, geminiMatch l = none → jsTrim l ≠ [] →
      parseGeminiStep [] l = [⟨some 0, some 30, none, jsTrim l⟩]) := by
  refine ⟨?_, ?_, ?_⟩
  · intro text h
    unfold parseGeminiTranscript
    simp only [adjustLastEnd]
    rw [updateLast_length]
    have := foldl_gemini_length
      ((splitOnChar '\n' text).filter (fun l => !(jsTrim l).isEmpty)) []
      (fun l hl => h l (List.mem_of_mem_filter hl))
    simpa using this
  · intro cs c l hm ht
    simp only [parseGeminiStep, hm]
    rw [if_pos ⟨by simp, by simpa using ht⟩]
    exact updateLast_append_singleton _ cs c
  · intro l hm ht
    simp only [parseGeminiStep, hm]
    rw [if_neg (by simp)]
    rw [if_pos ⟨by simpa using ht, by simp⟩]

/-- Witness for C9 applying the at-most-one-cue part to a concrete
fully unstructured input. -/
theorem claim_C9_witness :
    (parseGeminiTranscript (str "hello world\nfoo bar")).length ≤ 1 :=
  claim_C9.1 (str "hello world\nfoo bar") (by decide)
